import Mathlib

/-!
Shallow embedding of the mutation-discovery core (`src/visit.rs`) of a
mutation-testing tool, together with proofs about its behaviour.

Token streams (`proc_macro2`) are modelled as lists of token trees, types
(`syn::Type`) as a small inductive mirroring the cases the code inspects,
attributes as paths plus nested-meta argument lists, and the file walker as a
fuelled loop over an explicit queue.  All definitions are executable.
-/

namespace Visit

/-! ## Token trees and the pretty-printer (`tokens_to_pretty_string`) -/

/-- Group delimiters of `proc_macro2`. `nDelim` is the `None` delimiter. -/
inductive Delim where
  | brace
  | bracket
  | paren
  | nDelim
deriving DecidableEq, Repr

/-- A `proc_macro2::TokenTree`: punctuation, identifier, literal, or a
delimited group.  Identifiers and literals carry their rendered text. -/
inductive Tok where
  | punct (c : Char)
  | ident (s : String)
  | lit (s : String)
  | group (d : Delim) (inner : List Tok)
deriving Repr

/-- `str.ends_with("->")` specialised to the buffer: true iff the last two
characters are `-` followed by `>`. -/
def endsWithArrow (b : String) : Bool :=
  match b.data.reverse with
  | c1 :: c2 :: _ => c1 == '>' && c2 == '-'
  | _ => false

/-- Opening bracket rendered for a delimiter (the `None` delimiter renders
nothing). -/
def delimOpen (d : Delim) (b : String) : String :=
  match d with
  | .brace => b.push '\x7b'
  | .bracket => b.push '['
  | .paren => b.push '('
  | .nDelim => b

/-- Closing bracket rendered for a delimiter. -/
def delimClose (d : Delim) (b : String) : String :=
  match d with
  | .brace => b.push '\x7d'
  | .bracket => b.push ']'
  | .paren => b.push ')'
  | .nDelim => b

/-- Does an ident or literal get a space before the next token?  Mirrors the
`match next` arm of the printer: no space before `, ; < > : . !` punctuation,
before a group, or at the end. -/
def spaceAfterWord (peek : Option Tok) : Bool :=
  match peek with
  | some (.ident _) | some (.lit _) => true
  | some (.punct p) =>
      match p with
      | ',' | ';' | '<' | '>' | ':' | '.' | '!' => false
      | _ => true
  | some (.group _ _) => false
  | none => false

mutual

/-- Process one token of `tokens_to_pretty_string`, given the peeked next
token and the buffer so far. -/
def pttStep (t : Tok) (peek : Option Tok) (b : String) : String :=
  match t with
  | .punct c =>
      let b := b.push c
      if peek.isSome && (endsWithArrow b || c == ',' || c == ';') then b.push ' ' else b
  | .ident s =>
      let b := b ++ s
      if spaceAfterWord peek then b.push ' ' else b
  | .lit s =>
      let b := b ++ s
      if spaceAfterWord peek then b.push ' ' else b
  | .group d inner =>
      delimClose d (delimOpen d b ++ pttList inner "")
termination_by sizeOf t
decreasing_by all_goals (simp_wf; try omega)

/-- The printer's token loop: each token is processed with a peek at the next
one. -/
def pttList (ts : List Tok) (b : String) : String :=
  match ts with
  | [] => b
  | t :: rest => pttList rest (pttStep t rest.head? b)
termination_by sizeOf ts
decreasing_by all_goals (simp_wf; try omega)

end

/-- `tokens_to_pretty_string`: render a token stream to idiomatic source
text. -/
def tokens_to_pretty_string (ts : List Tok) : String :=
  pttList ts ""

/-! ## Types (`syn::Type`), restricted to the shape the code inspects -/

mutual

/-- A `syn::GenericArgument`: either a type, or anything else (lifetime,
const, binding, ...) carrying its tokens. -/
inductive GenArg where
  | typeArg (t : RsType)
  | otherArg (toks : List Tok)

/-- `syn::PathArguments` of one path segment. -/
inductive SegArgs where
  | noArgs
  | angle (args : List GenArg)
  | parenArgs (toks : List Tok)

/-- A `syn::PathSegment`: identifier plus arguments. -/
inductive RsSeg where
  | mk (identStr : String) (arguments : SegArgs)

/-- A `syn::Path`: optional leading colon and segments. -/
inductive RsPath where
  | mk (leading_colon : Bool) (segments : List RsSeg)

/-- A `syn::Type`, keeping exactly the cases `type_replacements` matches on;
`other` is the catch-all `_` arm and carries the original tokens. -/
inductive RsType where
  | path (p : RsPath)
  | array (elem : RsType) (len : List Tok)
  | reference (mutable : Bool) (elem : RsType)
  | tuple (elems : List RsType)
  | never
  | other (toks : List Tok)

end

/-- Identifier of a path segment. -/
def RsSeg.identStr : RsSeg -> String
  | .mk i _ => i

/-- Arguments of a path segment. -/
def RsSeg.arguments : RsSeg -> SegArgs
  | .mk _ a => a

/-- Segments of a path. -/
def RsPath.segments : RsPath -> List RsSeg
  | .mk _ segs => segs

/-- `path.segments.last()`. -/
def RsPath.lastSeg (p : RsPath) : Option RsSeg :=
  p.segments.getLast?

/-- `syn::Path::is_ident`: a single bare segment equal to the identifier,
with no leading colon and no arguments. -/
def RsPath.is_ident (p : RsPath) (s : String) : Bool :=
  match p with
  | .mk false [.mk i .noArgs] => i == s
  | _ => false

/-- `path_ends_with`: the last segment identifier equals `ident`. -/
def path_ends_with (p : RsPath) (s : String) : Bool :=
  match p.lastSeg with
  | some seg => seg.identStr == s
  | none => false

/-- `path_is_unsigned`. -/
def path_is_unsigned (p : RsPath) : Bool :=
  ["u8", "u16", "u32", "u64", "u128", "usize"].any (fun s => p.is_ident s)

/-- `path_is_signed`. -/
def path_is_signed (p : RsPath) : Bool :=
  ["i8", "i16", "i32", "i64", "i128", "isize"].any (fun s => p.is_ident s)

/-- `path_is_float`. -/
def path_is_float (p : RsPath) : Bool :=
  ["f32", "f64"].any (fun s => p.is_ident s)

/-- `path_is_nonzero_signed`: matches on the last segment identifier. -/
def path_is_nonzero_signed (p : RsPath) : Bool :=
  match p.lastSeg with
  | some seg =>
      ["NonZeroIsize", "NonZeroI8", "NonZeroI16", "NonZeroI32", "NonZeroI64",
        "NonZeroI128"].any (fun s => seg.identStr == s)
  | none => false

/-- `path_is_nonzero_unsigned`: matches on the last segment identifier. -/
def path_is_nonzero_unsigned (p : RsPath) : Bool :=
  match p.lastSeg with
  | some seg =>
      ["NonZeroUsize", "NonZeroU8", "NonZeroU16", "NonZeroU32", "NonZeroU64",
        "NonZeroU128"].any (fun s => seg.identStr == s)
  | none => false

/-- `match_first_type_arg`: if the path ends in `expected_ident`, return the
first generic argument provided it is a type argument. -/
def match_first_type_arg (p : RsPath) (expected_ident : String) : Option RsType :=
  match p.lastSeg with
  | none => none
  | some seg =>
      if seg.identStr == expected_ident then
        match seg.arguments with
        | .angle (.typeArg t :: _) => some t
        | _ => none
      else none

/-- `result_ok_type`. -/
def result_ok_type (p : RsPath) : Option RsType :=
  match_first_type_arg p "Result"

/-- `known_container`: `Box`, `Cell`, `RefCell`, `Arc`, `Rc`, `Mutex` with
exactly one angle-bracketed argument that is a type. -/
def known_container (p : RsPath) : Option (String × RsType) :=
  match p.lastSeg with
  | none => none
  | some seg =>
      if ["Box", "Cell", "RefCell", "Arc", "Rc", "Mutex"].any
          (fun v => seg.identStr == v) then
        match seg.arguments with
        | .angle [.typeArg t] => some (seg.identStr, t)
        | _ => none
      else none

/-- `known_collection`: `BinaryHeap`, `BTreeSet`, `HashSet`, `LinkedList`,
`VecDeque` with exactly one angle-bracketed argument that is a type. -/
def known_collection (p : RsPath) : Option (String × RsType) :=
  match p.lastSeg with
  | none => none
  | some seg =>
      if !(["BinaryHeap", "BTreeSet", "HashSet", "LinkedList", "VecDeque"].any
          (fun v => seg.identStr == v)) then
        none
      else
        match seg.arguments with
        | .angle [.typeArg t] => some (seg.identStr, t)
        | _ => none

/-- The filter used by `maybe_collection_or_container`: keep type arguments. -/
def GenArg.asType : GenArg -> Option RsType
  | .typeArg t => some t
  | .otherArg _ => none

/-- `maybe_collection_or_container`: any path whose last segment has exactly
one type argument among its angle-bracketed arguments. -/
def maybe_collection_or_container (p : RsPath) : Option (String × RsType) :=
  match p.lastSeg with
  | none => none
  | some seg =>
      match seg.arguments with
      | .angle args =>
          match args.filterMap GenArg.asType with
          | [t] => some (seg.identStr, t)
          | _ => none
      | _ => none

/-! ## Size lemmas for termination of the replacement synthesizer -/

/-- A segment obtained by `lastSeg` is smaller than its path. -/
theorem lastSeg_sizeOf {p : RsPath} {seg : RsSeg} (h : p.lastSeg = some seg) :
    sizeOf seg < sizeOf p := by
  have hm : seg ∈ p.segments := List.mem_of_mem_getLast? h
  have hs := List.sizeOf_lt_of_mem hm
  cases p with
  | mk lc segs =>
    simp only [RsPath.segments] at hs
    simp only [RsPath.mk.sizeOf_spec]
    omega

/-- A type argument in a segment's angle-bracket list is smaller than the
segment. -/
theorem seg_angle_arg_sizeOf {seg : RsSeg} {args : List GenArg} {t : RsType}
    (ha : seg.arguments = .angle args) (hm : GenArg.typeArg t ∈ args) :
    sizeOf t < sizeOf seg := by
  have hs := List.sizeOf_lt_of_mem hm
  cases seg with
  | mk i a =>
    simp only [RsSeg.arguments] at ha
    subst ha
    simp only [RsSeg.mk.sizeOf_spec, SegArgs.angle.sizeOf_spec,
      GenArg.typeArg.sizeOf_spec] at hs ⊢
    omega

/-- The type argument found by `match_first_type_arg` is smaller than the
path's type. -/
theorem match_first_type_arg_sizeOf {p : RsPath} {s : String} {t : RsType}
    (h : match_first_type_arg p s = some t) : sizeOf t < sizeOf (RsType.path p) := by
  unfold match_first_type_arg at h
  cases hseg : p.lastSeg with
  | none => rw [hseg] at h; simp at h
  | some seg =>
    rw [hseg] at h
    dsimp only at h
    by_cases hid : (seg.identStr == s) = true
    · rw [if_pos hid] at h
      cases harg : seg.arguments with
      | angle args =>
        rw [harg] at h
        cases args with
        | nil => simp at h
        | cons a rest =>
          cases a with
          | typeArg t2 =>
            simp only [Option.some.injEq] at h
            subst h
            have h1 := lastSeg_sizeOf hseg
            have h2 := seg_angle_arg_sizeOf harg (List.mem_cons_self _ _)
            simp only [RsType.path.sizeOf_spec]
            omega
          | otherArg ts => simp at h
      | noArgs => rw [harg] at h; simp at h
      | parenArgs ts => rw [harg] at h; simp at h
    · rw [if_neg hid] at h; simp at h

/-- The type found by `result_ok_type` is smaller than the path's type. -/
theorem result_ok_type_sizeOf {p : RsPath} {t : RsType}
    (h : result_ok_type p = some t) : sizeOf t < sizeOf (RsType.path p) :=
  match_first_type_arg_sizeOf h

/-- The inner type found by `known_container` is smaller than the path's
type. -/
theorem known_container_sizeOf {p : RsPath} {k : String} {t : RsType}
    (h : known_container p = some (k, t)) : sizeOf t < sizeOf (RsType.path p) := by
  unfold known_container at h
  cases hseg : p.lastSeg with
  | none => rw [hseg] at h; simp at h
  | some seg =>
    rw [hseg] at h
    dsimp only at h
    by_cases hid : (["Box", "Cell", "RefCell", "Arc", "Rc", "Mutex"].any
        (fun v => seg.identStr == v)) = true
    · rw [if_pos hid] at h
      cases harg : seg.arguments with
      | angle args =>
        rw [harg] at h
        match args, h with
        | [GenArg.typeArg t2], h =>
          simp only [Option.some.injEq, Prod.mk.injEq] at h
          obtain ⟨rfl, rfl⟩ := h
          have h1 := lastSeg_sizeOf hseg
          have h2 := seg_angle_arg_sizeOf harg (List.mem_cons_self _ _)
          simp only [RsType.path.sizeOf_spec]
          omega
      | noArgs => rw [harg] at h; simp at h
      | parenArgs ts => rw [harg] at h; simp at h
    · rw [if_neg hid] at h; simp at h

/-- The inner type found by `known_collection` is smaller than the path's
type. -/
theorem known_collection_sizeOf {p : RsPath} {k : String} {t : RsType}
    (h : known_collection p = some (k, t)) : sizeOf t < sizeOf (RsType.path p) := by
  unfold known_collection at h
  cases hseg : p.lastSeg with
  | none => rw [hseg] at h; simp at h
  | some seg =>
    rw [hseg] at h
    dsimp only at h
    by_cases hid : (!(["BinaryHeap", "BTreeSet", "HashSet", "LinkedList",
        "VecDeque"].any (fun v => seg.identStr == v))) = true
    · rw [if_pos hid] at h; simp at h
    · rw [if_neg hid] at h
      cases harg : seg.arguments with
      | angle args =>
        rw [harg] at h
        match args, h with
        | [GenArg.typeArg t2], h =>
          simp only [Option.some.injEq, Prod.mk.injEq] at h
          obtain ⟨rfl, rfl⟩ := h
          have h1 := lastSeg_sizeOf hseg
          have h2 := seg_angle_arg_sizeOf harg (List.mem_cons_self _ _)
          simp only [RsType.path.sizeOf_spec]
          omega
      | noArgs => rw [harg] at h; simp at h
      | parenArgs ts => rw [harg] at h; simp at h

/-- The inner type found by `maybe_collection_or_container` is smaller than
the path's type. -/
theorem maybe_collection_sizeOf {p : RsPath} {k : String} {t : RsType}
    (h : maybe_collection_or_container p = some (k, t)) :
    sizeOf t < sizeOf (RsType.path p) := by
  unfold maybe_collection_or_container at h
  cases hseg : p.lastSeg with
  | none => rw [hseg] at h; simp at h
  | some seg =>
    rw [hseg] at h
    dsimp only at h
    cases harg : seg.arguments with
    | angle args =>
      rw [harg] at h
      dsimp only at h
      cases hf : args.filterMap GenArg.asType with
      | nil => rw [hf] at h; simp at h
      | cons t2 rest =>
        rw [hf] at h
        match rest, h with
        | [], h =>
          simp only [Option.some.injEq, Prod.mk.injEq] at h
          obtain ⟨rfl, rfl⟩ := h
          have hmem : GenArg.typeArg t2 ∈ args := by
            have hint : t2 ∈ args.filterMap GenArg.asType := by
              rw [hf]; exact List.mem_cons_self _ _
            obtain ⟨a, hma, hfa⟩ := List.mem_filterMap.mp hint
            cases a with
            | typeArg t3 =>
              obtain rfl : t3 = t2 := by simpa [GenArg.asType] using hfa
              exact hma
            | otherArg ts => simp [GenArg.asType] at hfa
          have h1 := lastSeg_sizeOf hseg
          have h2 := seg_angle_arg_sizeOf harg hmem
          simp only [RsType.path.sizeOf_spec]
          omega
    | noArgs => rw [harg] at h; simp at h
    | parenArgs ts => rw [harg] at h; simp at h

/-! ## The replacement synthesizer (`type_replacements`) -/

/-- Tokens of `Default::default()`. -/
def defaultCall : List Tok :=
  [.ident "Default", .punct ':', .punct ':', .ident "default", .group .paren []]

/-- The guard of the `&T` arm: `Type::Path(path) if path.path.is_ident("str")`. -/
def isStrPath : RsType → Bool
  | .path ep => ep.is_ident "str"
  | _ => false

/-- `type_replacements`: candidate replacement token streams for a return
type, given the pre-parsed error expressions.  Mirrors the source's
first-match-wins chain. -/
def type_replacements (type_ : RsType) (error_exprs : List (List Tok)) :
    List (List Tok) :=
  match type_ with
  | .path p =>
    if p.is_ident "bool" then
      [[.ident "true"], [.ident "false"]]
    else if p.is_ident "String" then
      [[.ident "String", .punct ':', .punct ':', .ident "new", .group .paren []],
        [.lit "\"xyzzy\"", .punct '.', .ident "into", .group .paren []]]
    else if p.is_ident "str" then
      [[.lit "\"\""], [.lit "\"xyzzy\""]]
    else if path_is_unsigned p then
      [[.lit "0"], [.lit "1"]]
    else if path_is_signed p then
      [[.lit "0"], [.lit "1"], [.punct '-', .lit "1"]]
    else if path_is_nonzero_signed p then
      [[.lit "1"], [.punct '-', .lit "1"]]
    else if path_is_nonzero_unsigned p then
      [[.lit "1"]]
    else if path_is_float p then
      [[.lit "0.0"], [.lit "1.0"], [.punct '-', .lit "1.0"]]
    else if path_ends_with p "Result" then
      (match _hr : result_ok_type p with
        | some ok_type =>
            (type_replacements ok_type error_exprs).map
              (fun rep => [.ident "Ok", .group .paren rep])
        | none => [[.ident "Ok", .group .paren defaultCall]]) ++
        error_exprs.map (fun e => [.ident "Err", .group .paren e])
    else if path_ends_with p "HttpResponse" then
      [[.ident "HttpResponse", .punct ':', .punct ':', .ident "Ok",
         .group .paren [], .punct '.', .ident "finish", .group .paren []]]
    else
      match _ho : match_first_type_arg p "Option" with
      | some some_type =>
          [.ident "None"] ::
            (type_replacements some_type error_exprs).map
              (fun rep => [.ident "Some", .group .paren rep])
      | none =>
        match _hv : match_first_type_arg p "Vec" with
        | some boxed_type =>
            [.ident "vec", .punct '!', .group .bracket []] ::
              (type_replacements boxed_type error_exprs).map
                (fun rep => [.ident "vec", .punct '!', .group .bracket rep])
        | none =>
          match _hc : known_container p with
          | some (container_type, inner_type) =>
              (type_replacements inner_type error_exprs).map
                (fun rep => [.ident container_type, .punct ':', .punct ':',
                  .ident "new", .group .paren rep])
          | none =>
            match _hk : known_collection p with
            | some (collection_type, inner_type) =>
                [.ident collection_type, .punct ':', .punct ':', .ident "new",
                    .group .paren []] ::
                  (type_replacements inner_type error_exprs).map
                    (fun rep => [.ident collection_type, .punct ':', .punct ':',
                      .ident "from_iter", .group .paren [.group .bracket rep]])
            | none =>
              match _hm : maybe_collection_or_container p with
              | some (collection_type, inner_type) =>
                  [.ident collection_type, .punct ':', .punct ':', .ident "new",
                      .group .paren []] ::
                    (type_replacements inner_type error_exprs).flatMap
                      (fun rep =>
                        [[.ident collection_type, .punct ':', .punct ':',
                            .ident "from_iter", .group .paren [.group .bracket rep]],
                          [.ident collection_type, .punct ':', .punct ':',
                            .ident "new", .group .paren rep],
                          [.ident collection_type, .punct ':', .punct ':',
                            .ident "from", .group .paren rep]])
              | none => [defaultCall]
  | .array elem len =>
      (type_replacements elem error_exprs).map
        (fun r => [.group .bracket (r ++ .punct ';' :: len)])
  | .reference false elem =>
      if isStrPath elem then
        [[.lit "\"\""], [.lit "\"xyzzy\""]]
      else
        (type_replacements elem error_exprs).map (fun rep => .punct '&' :: rep)
  | .reference true elem =>
      (type_replacements elem error_exprs).map
        (fun rep => [.ident "Box", .punct ':', .punct ':', .ident "leak",
          .group .paren [.ident "Box", .punct ':', .punct ':', .ident "new",
            .group .paren rep]])
  | .tuple elems =>
      if elems.isEmpty then [[.group .paren []]] else [defaultCall]
  | .never => []
  | .other _ => [defaultCall]
termination_by sizeOf type_
decreasing_by
  all_goals simp_wf
  all_goals
    first
      | omega
      | (first
          | exact result_ok_type_sizeOf (by assumption)
          | exact match_first_type_arg_sizeOf (by assumption)
          | exact known_container_sizeOf (by assumption)
          | exact known_collection_sizeOf (by assumption)
          | exact maybe_collection_sizeOf (by assumption))

/-- The return type `Result<Result<bool>>`. -/
def resultResultBool : RsType :=
  .path (.mk false [.mk "Result" (.angle [.typeArg (.path (.mk false
    [.mk "Result" (.angle [.typeArg (.path (.mk false
      [.mk "bool" SegArgs.noArgs]))])]))])])

/-! ## Attributes and the skip filters -/

mutual

/-- What follows one meta path inside an attribute's argument list: nothing,
a parenthesized nested list, or an `= value` clause. -/
inductive MetaTrailing where
  | noTrailing
  | parenArgs (items : List MetaItem)
  | eqValue (toks : List Tok)

/-- One item of a nested-meta list: a path with optional trailing part, or
something that is not a path at all. -/
inductive MetaItem where
  | meta (path : List String) (trailing : MetaTrailing)
  | malformed (toks : List Tok)

end

/-- The argument position of an attribute: bare path (`#[test]`),
`#[key = value]`, or a delimited list (`#[cfg(...)]`). -/
inductive AttrArgs where
  | pathOnly
  | nameValue (toks : List Tok)
  | list (items : List MetaItem)

/-- A `syn::Attribute`: its path and its arguments. -/
structure Attr where
  path : List String
  args : AttrArgs

/-- `path_is`: the path's segment identifiers equal the given list. -/
def path_is (p : List String) (idents : List String) : Bool :=
  p == idents

/-- Iteration of `syn`'s `Attribute::parse_nested_meta` with a callback that
only inspects `meta.path` and consumes nothing else.  Yields the sequence of
paths handed to the callback, or `none` when parsing fails: a bare-path or
name-value attribute has no parenthesized argument list; inside the list, a
non-path item fails at `parse_meta_path`, and an item with a trailing
`(...)` or `= value` part fails right after its callback because the parser
then expects `,` or end of input.  Both callers in the source return `false`
whenever parsing fails, so the paths seen before a failure are irrelevant. -/
def parse_nested_meta_paths (attr : Attr) : Option (List (List String)) :=
  match attr.args with
  | .pathOnly => none
  | .nameValue _ => none
  | .list items => go items
where
  /-- Walk the comma-separated meta items. -/
  go : List MetaItem → Option (List (List String))
  | [] => some []
  | .malformed _ :: _ => none
  | .meta p trailing :: rest =>
      match trailing with
      | .noTrailing => (go rest).map (fun ps => p :: ps)
      | _ => none

/-- `attr_is_cfg_test`: path is `cfg` and the nested-meta walk saw an item
whose path is the single identifier `test`. -/
def attr_is_cfg_test (attr : Attr) : Bool :=
  if !path_is attr.path ["cfg"] then false
  else
    match parse_nested_meta_paths attr with
    | none => false
    | some paths => paths.any (fun p => p == ["test"])

/-- `attr_is_test`: the attribute path is the single identifier `test`. -/
def attr_is_test (attr : Attr) : Bool :=
  attr.path == ["test"]

/-- `attr_is_mutants_skip`: the path is `mutants::skip`, or the path is
`cfg_attr` and the nested-meta walk saw an item with path `mutants::skip`. -/
def attr_is_mutants_skip (attr : Attr) : Bool :=
  if path_is attr.path ["mutants", "skip"] then true
  else if !path_is attr.path ["cfg_attr"] then false
  else
    match parse_nested_meta_paths attr with
    | none => false
    | some paths => paths.any (fun p => p == ["mutants", "skip"])

/-- `attrs_excluded`: any attribute is a test/cfg-test/mutants-skip marker. -/
def attrs_excluded (attrs : List Attr) : Bool :=
  attrs.any (fun attr =>
    attr_is_cfg_test attr || attr_is_test attr || attr_is_mutants_skip attr)

/-- `fn_sig_excluded`: the signature has an `unsafety` qualifier.  The only
part of `syn::Signature` the function consults is that qualifier, so the
embedding passes it directly. -/
def fn_sig_excluded (unsafety : Bool) : Bool :=
  unsafety

mutual

/-- Spec-side predicate for C2: the nested meta of the attribute contains an
identifier `test` anywhere among the nested meta items, including inside
nested lists such as `any(test, ...)`. -/
def metaItemContainsTest (item : MetaItem) : Bool :=
  match item with
  | .meta p trailing =>
      p == ["test"] ||
        (match trailing with
          | .parenArgs items => metaItemsContainTest items
          | _ => false)
  | .malformed _ => false
termination_by sizeOf item
decreasing_by all_goals (simp_wf; try omega)

/-- Any item of the list contains a `test` identifier. -/
def metaItemsContainTest (items : List MetaItem) : Bool :=
  match items with
  | [] => false
  | item :: rest => metaItemContainsTest item || metaItemsContainTest rest
termination_by sizeOf items
decreasing_by all_goals (simp_wf; try omega)

end

/-- Spec-side predicate for C2 applied to a whole attribute. -/
def nested_meta_contains_test (attr : Attr) : Bool :=
  match attr.args with
  | .list items => metaItemsContainTest items
  | _ => false

/-! ## Return types and their rendering -/

/-- `syn::ReturnType`: absent (implicit unit) or an arrow plus a type. -/
inductive RetTy where
  | default
  | type (t : RsType)

/-- `return_type_replacements`: implicit unit yields `()`, otherwise defer
to the type synthesizer. -/
def return_type_replacements (return_type : RetTy)
    (error_exprs : List (List Tok)) : List (List Tok) :=
  match return_type with
  | .default => [[.group .paren []]]
  | .type t => type_replacements t error_exprs

mutual

/-- `ToTokens` for the embedded `syn::Type`. -/
def typeToTokens (t : RsType) : List Tok :=
  match t with
  | .path p => pathToTokens p
  | .array elem len => [.group .bracket (typeToTokens elem ++ .punct ';' :: len)]
  | .reference false elem => .punct '&' :: typeToTokens elem
  | .reference true elem => .punct '&' :: .ident "mut" :: typeToTokens elem
  | .tuple elems => [.group .paren (tupleToTokens elems)]
  | .never => [.punct '!']
  | .other toks => toks
termination_by sizeOf t
decreasing_by all_goals (simp_wf; try omega)

/-- Comma-separated tuple elements. -/
def tupleToTokens (ts : List RsType) : List Tok :=
  match ts with
  | [] => []
  | [t] => typeToTokens t
  | t :: rest => typeToTokens t ++ .punct ',' :: tupleToTokens rest
termination_by sizeOf ts
decreasing_by all_goals (simp_wf; try omega)

/-- `ToTokens` for a path. -/
def pathToTokens (p : RsPath) : List Tok :=
  match p with
  | .mk lc segs =>
      (if lc then [.punct ':', .punct ':'] else []) ++ segsToTokens segs

termination_by sizeOf p
decreasing_by all_goals (simp_wf; try omega)

/-- `::`-separated path segments. -/
def segsToTokens (segs : List RsSeg) : List Tok :=
  match segs with
  | [] => []
  | [seg] => segToTokens seg
  | seg :: rest => segToTokens seg ++ .punct ':' :: .punct ':' :: segsToTokens rest
termination_by sizeOf segs
decreasing_by all_goals (simp_wf; try omega)

/-- One path segment. -/
def segToTokens (seg : RsSeg) : List Tok :=
  match seg with
  | .mk i args => .ident i :: argsToTokens args
termination_by sizeOf seg
decreasing_by all_goals (simp_wf; try omega)

/-- Segment arguments. -/
def argsToTokens (args : SegArgs) : List Tok :=
  match args with
  | .noArgs => []
  | .angle gas => .punct '<' :: genArgsToTokens gas ++ [.punct '>']
  | .parenArgs toks => toks
termination_by sizeOf args
decreasing_by all_goals (simp_wf; try omega)

/-- Comma-separated generic arguments. -/
def genArgsToTokens (gas : List GenArg) : List Tok :=
  match gas with
  | [] => []
  | [a] => genArgToTokens a
  | a :: rest => genArgToTokens a ++ .punct ',' :: genArgsToTokens rest
termination_by sizeOf gas
decreasing_by all_goals (simp_wf; try omega)

/-- One generic argument. -/
def genArgToTokens (a : GenArg) : List Tok :=
  match a with
  | .typeArg t => typeToTokens t
  | .otherArg toks => toks
termination_by sizeOf a
decreasing_by all_goals (simp_wf; try omega)

end

/-- `return_type_to_string`: empty for implicit unit, otherwise the arrow
followed by the pretty-printed type. -/
def return_type_to_string (return_type : RetTy) : String :=
  match return_type with
  | .default => ""
  | .type t => "-> " ++ tokens_to_pretty_string (typeToTokens t)

/-! ## Items, mutants, and the discovery visitor -/

mutual

/-- A `syn::Item`, keeping the cases the visitor handles: free functions,
impl blocks, modules, and anything else. -/
inductive Item where
  | fnItem (attrs : List Attr) (unsafety : Bool) (identTok : String)
      (output : RetTy) (body : List Stmt)
  | implBlock (attrs : List Attr) (self_ty : List Tok)
      (traitSegs : Option (List String)) (members : List ImplMember)
  | modItem (attrs : List Attr) (identTok : String)
      (content : Option (List Item))
  | otherItem

/-- A statement of a block: a nested item or anything else. -/
inductive Stmt where
  | itemStmt (i : Item)
  | otherStmt

/-- A `syn::ImplItem`: a method (`ImplItemFn`) or anything else. -/
inductive ImplMember where
  | methodItem (attrs : List Attr) (unsafety : Bool) (identTok : String)
      (output : RetTy) (body : List Stmt)
  | otherMember

end

/-- `block_is_empty`: the statement list is empty. -/
def block_is_empty (body : List Stmt) : Bool :=
  body.isEmpty

/-- `Ident::unraw`: strip a leading `r#`. -/
def identUnraw (s : String) : String :=
  if s.startsWith "r#" then s.drop 2 else s

/-- The mutation genre; this core only produces `FnValue`. -/
inductive Genre where
  | FnValue
deriving DecidableEq

/-- Relative path of a file in the tree, as a list of components. -/
abbrev FsPath := List String

/-- Modelled from the spec: a source file's parsed text, as consumed by
`walk_file` (`syn::parse_str::<syn::File>` either fails or yields items). -/
inductive FileCode where
  | unparseable
  | parsed (items : List Item)

/-- Modelled from the spec: the `SourceFile` record (defined in
`src/source.rs`, which is not among the provided sources): tree-relative
path, package identifier, and code text (here kept in parsed form). -/
structure SourceFile where
  tree_relative_path : FsPath
  package : String
  code : FileCode

/-- Modelled from the spec: the `Mutant` record.  The span field (the byte
range of the function body) plays no role in any claim and is omitted. -/
structure Mutant where
  source_file : SourceFile
  function_name : String
  return_type : String
  replacement : String
  genre : Genre

/-- The mutable state of `DiscoveryVisitor`: collected mutants, the
namespace stack, and names from `mod foo;` statements. -/
structure DiscoveryVisitor where
  mutants : List Mutant
  namespace_stack : List String
  external_mods : List String

/-- `DiscoveryVisitor::collect_fn_mutants`: one mutant per replacement for
the function named by the current namespace stack. -/
def collect_fn_mutants (source_file : SourceFile)
    (error_exprs : List (List Tok)) (v : DiscoveryVisitor)
    (return_type : RetTy) : DiscoveryVisitor :=
  let full_function_name := String.intercalate "::" v.namespace_stack
  let return_type_str := return_type_to_string return_type
  let new_mutants := (return_type_replacements return_type error_exprs).map
    (fun rep =>
      { source_file := source_file
        function_name := full_function_name
        return_type := return_type_str
        replacement := tokens_to_pretty_string rep
        genre := .FnValue })
  if new_mutants.isEmpty then v
  else { v with mutants := v.mutants ++ new_mutants }

mutual

/-- `Visit::visit_item_fn` / `visit_item_impl` / `visit_item_mod` for one
item.  `in_namespace` is inlined as push / recurse / pop. -/
def visit_item (sf : SourceFile) (errs : List (List Tok)) (i : Item)
    (v : DiscoveryVisitor) : DiscoveryVisitor :=
  match i with
  | .fnItem attrs unsafety identTok output body =>
      let function_name := tokens_to_pretty_string [.ident identTok]
      if fn_sig_excluded unsafety || attrs_excluded attrs ||
          block_is_empty body then v
      else
        let v1 := { v with
          namespace_stack := v.namespace_stack ++ [function_name] }
        let v2 := collect_fn_mutants sf errs v1 output
        let v3 := visit_stmts sf errs body v2
        { v3 with namespace_stack := v3.namespace_stack.dropLast }
  | .implBlock attrs self_ty traitSegs members =>
      if attrs_excluded attrs then v
      else
        let type_name := tokens_to_pretty_string self_ty
        match traitSegs with
        | some trait_path =>
            let trait_name := trait_path.getLast?.getD ""
            if trait_name == "Default" then v
            else
              let name := "<impl " ++ trait_name ++ " for " ++ type_name ++ ">"
              let v1 := { v with namespace_stack := v.namespace_stack ++ [name] }
              let v2 := visit_impl_members sf errs members v1
              { v2 with namespace_stack := v2.namespace_stack.dropLast }
        | none =>
            let v1 := { v with
              namespace_stack := v.namespace_stack ++ [type_name] }
            let v2 := visit_impl_members sf errs members v1
            { v2 with namespace_stack := v2.namespace_stack.dropLast }
  | .modItem attrs identTok none =>
      if attrs_excluded attrs then v
      else
        let mod_name := identUnraw identTok
        let v1 := { v with external_mods := v.external_mods ++ [mod_name] }
        let v2 := { v1 with namespace_stack := v1.namespace_stack ++ [mod_name] }
        { v2 with namespace_stack := v2.namespace_stack.dropLast }
  | .modItem attrs identTok (some content) =>
      if attrs_excluded attrs then v
      else
        let mod_name := identUnraw identTok
        let v1 := { v with namespace_stack := v.namespace_stack ++ [mod_name] }
        let v2 := visit_items sf errs content v1
        { v2 with namespace_stack := v2.namespace_stack.dropLast }
  | .otherItem => v
termination_by sizeOf i
decreasing_by all_goals (simp_wf; try omega)

/-- Visit the statements of a block in order. -/
def visit_stmts (sf : SourceFile) (errs : List (List Tok)) (stmts : List Stmt)
    (v : DiscoveryVisitor) : DiscoveryVisitor :=
  match stmts with
  | [] => v
  | .itemStmt i :: rest => visit_stmts sf errs rest (visit_item sf errs i v)
  | .otherStmt :: rest => visit_stmts sf errs rest v
termination_by sizeOf stmts
decreasing_by all_goals (simp_wf; try omega)

/-- Visit the members of an impl block in order; methods follow
`visit_impl_item_fn`, which additionally skips constructors named `new`. -/
def visit_impl_members (sf : SourceFile) (errs : List (List Tok))
    (members : List ImplMember) (v : DiscoveryVisitor) : DiscoveryVisitor :=
  match members with
  | [] => v
  | .methodItem attrs unsafety identTok output body :: rest =>
      let function_name := tokens_to_pretty_string [.ident identTok]
      let v' :=
        if fn_sig_excluded unsafety || attrs_excluded attrs ||
            identTok == "new" || block_is_empty body then v
        else
          let v1 := { v with
            namespace_stack := v.namespace_stack ++ [function_name] }
          let v2 := collect_fn_mutants sf errs v1 output
          let v3 := visit_stmts sf errs body v2
          { v3 with namespace_stack := v3.namespace_stack.dropLast }
      visit_impl_members sf errs rest v'
  | .otherMember :: rest => visit_impl_members sf errs rest v
termination_by sizeOf members
decreasing_by all_goals (simp_wf; try omega)

/-- Visit the items of a file or inline module in order. -/
def visit_items (sf : SourceFile) (errs : List (List Tok)) (items : List Item)
    (v : DiscoveryVisitor) : DiscoveryVisitor :=
  match items with
  | [] => v
  | i :: rest => visit_items sf errs rest (visit_item sf errs i v)
termination_by sizeOf items
decreasing_by all_goals (simp_wf; try omega)

end

/-- Run the visitor over a parsed file, starting from empty state. -/
def visit_file (sf : SourceFile) (errs : List (List Tok))
    (items : List Item) : DiscoveryVisitor :=
  visit_items sf errs items ⟨[], [], []⟩

/-! ## Module-file resolution (`find_mod_source`) -/

/-- The filesystem as seen by the resolver's `is_file` probes. -/
structure FileSystem where
  is_file : FsPath → Bool

/-- `Utf8Path::file_name` of a component list. -/
def fileName (p : FsPath) : Option String :=
  p.getLast?

/-- `Utf8Path::parent`: drop the final component. -/
def parentPath (p : FsPath) : FsPath :=
  p.dropLast

/-- Strip the extension of a file name: drop everything after the last dot,
provided the stem before that dot is nonempty (so `.rs` has no extension). -/
def stripExtension (name : String) : String :=
  let parts := name.splitOn "."
  match parts with
  | [] => name
  | [_] => name
  | first :: _ =>
      if parts.length == 2 && first == "" then name
      else String.intercalate "." parts.dropLast

/-- `Utf8Path::with_extension("")`: strip the extension of the final
component. -/
def with_extension_empty (p : FsPath) : FsPath :=
  match p.getLast? with
  | none => p
  | some last => p.dropLast ++ [stripExtension last]

/-- `find_mod_source`: choose the search directory from the parent's file
name, then probe `dir/<name>.rs` and `dir/<name>/mod.rs` in that order,
returning the first that is a regular file; `none` when neither is (the
source logs a warning with the probed paths and returns `Ok(None)`). -/
def find_mod_source (fs : FileSystem) (tree_root : FsPath)
    (parent : SourceFile) (mod_name : String) : Option FsPath :=
  let parent_path := parent.tree_relative_path
  let dir :=
    if fileName parent_path == some "mod.rs" ||
        fileName parent_path == some "lib.rs" ||
        fileName parent_path == some "main.rs" then
      parentPath parent_path
    else
      with_extension_empty parent_path
  let cand1 := dir ++ [mod_name ++ ".rs"]
  let cand2 := dir ++ [mod_name, "mod.rs"]
  if fs.is_file (tree_root ++ cand1) then some cand1
  else if fs.is_file (tree_root ++ cand2) then some cand2
  else none

/-! ## The tree walker (`walk_tree` / `walk_file`) -/

/-- Errors surfaced by the walk, per the spec's error taxonomy.
`fuelExhausted` is an artifact of the fuelled embedding of the source's
unbounded `while` loop; no claim concerns it. -/
inductive WalkError where
  | configParse
  | fileParse (path : FsPath)
  | ioError (path : FsPath)
  | interrupted
  | fuelExhausted
deriving DecidableEq

/-- The result of walking one file. -/
structure FileDiscoveries where
  mutants : List Mutant
  more_files : List FsPath

/-- `walk_file`: parse the file, run the visitor, then resolve every
remembered external module name, keeping the successful resolutions
(a failed resolution contributes nothing and is not an error). -/
def walk_file (fs : FileSystem) (root : FsPath) (source_file : SourceFile)
    (error_exprs : List (List Tok)) : Except WalkError FileDiscoveries :=
  match source_file.code with
  | .unparseable => .error (.fileParse source_file.tree_relative_path)
  | .parsed items =>
      let visitor := visit_file source_file error_exprs items
      .ok { mutants := visitor.mutants
            more_files := visitor.external_mods.filterMap
              (fun mod_name => find_mod_source fs root source_file mod_name) }

/-- Modelled from the spec: a compiled path glob set; only `is_match` is
consulted by the walker. -/
structure GlobSet where
  is_match : FsPath → Bool

/-- Modelled from the spec: a compiled regex set matched against mutant
names; `is_empty` is true when it was built from no patterns (such a set
matches nothing). -/
structure RegexSet where
  is_empty : Bool
  is_match : String → Bool

/-- Modelled from the spec: the options the walker consults.  Each
`error_values` entry carries its parse result (`none` models a string that
`syn::parse_str` rejects); `interrupt n` gives the state of the cooperative
interruption flag observed at the top of the n-th file iteration. -/
structure Options where
  error_values : List (Option (List Tok))
  examine_globset : Option GlobSet
  exclude_globset : Option GlobSet
  examine_names : Option RegexSet
  exclude_names : Option RegexSet
  interrupt : Nat → Bool

/-- Modelled from the spec: the mutant's display string matched by the name
filters — a stable rendering with the file path, function name, return type
and replacement. -/
def Mutant.toString (m : Mutant) : String :=
  String.intercalate "/" m.source_file.tree_relative_path ++ ":" ++
    m.function_name ++ ":" ++ m.return_type ++ " -> " ++ m.replacement

/-- Modelled from the spec: the file environment read by `SourceFile::new`
(defined in `src/source.rs`, not among the provided sources); `none` models
a failing read. -/
structure FileEnv where
  read : FsPath → Option FileCode

/-- Modelled from the spec: `SourceFile::new` loads a file, inheriting the
package identifier. -/
def SourceFile.new (env : FileEnv) (path : FsPath) (package : String) :
    Except WalkError SourceFile :=
  match env.read path with
  | none => .error (.ioError path)
  | some code =>
      .ok { tree_relative_path := path, package := package, code := code }

/-- The walker's output. -/
structure Discovered where
  mutants : List Mutant
  files : List SourceFile

/-- Pre-parsing of the configured error values, failing fast on the first
unparseable one. -/
def parse_error_exprs : List (Option (List Tok)) →
    Except WalkError (List (List Tok))
  | [] => .ok []
  | none :: _ => .error .configParse
  | some e :: rest => (parse_error_exprs rest).map (fun es => e :: es)

/-- Construct a `SourceFile` for every discovered path, failing on the
first read error. -/
def enqueue_found (env : FileEnv) (package : String) :
    List FsPath → Except WalkError (List SourceFile)
  | [] => .ok []
  | p :: rest => do
      let sf ← SourceFile.new env p package
      let more ← enqueue_found env package rest
      .ok (sf :: more)

/-- The examine-globset check: skip the file when a globset is configured
and the path does not match it. -/
def examine_glob_skips (options : Options) (path : FsPath) : Bool :=
  match options.examine_globset with
  | some g => !g.is_match path
  | none => false

/-- The exclude-globset check: skip the file when a globset is configured
and the path matches it. -/
def exclude_glob_skips (options : Options) (path : FsPath) : Bool :=
  match options.exclude_globset with
  | some g => g.is_match path
  | none => false

/-- The two name-regex retains applied to one file's mutants, each a no-op
when the set is absent or empty. -/
def name_filters (options : Options) (file_mutants : List Mutant) :
    List Mutant :=
  let m1 :=
    match options.examine_names with
    | some ns =>
        if !ns.is_empty then
          file_mutants.filter (fun m => ns.is_match m.toString)
        else file_mutants
    | none => file_mutants
  match options.exclude_names with
  | some ns =>
      if !ns.is_empty then m1.filter (fun m => !ns.is_match m.toString)
      else m1
  | none => m1

/-- The walker's queue loop.  One fuel unit is spent per file iteration;
`tick` counts iterations for the interruption flag.  Mirrors the source:
pop, check interruption, walk the file, enqueue its module discoveries,
then apply glob filters (`continue`) and name filters before appending. -/
def walk_loop (fs : FileSystem) (env : FileEnv) (root : FsPath)
    (options : Options) (error_exprs : List (List Tok)) :
    Nat → Nat → List SourceFile → List Mutant → List SourceFile →
    Except WalkError Discovered
  | 0, _, _, _, _ => .error .fuelExhausted
  | fuel + 1, tick, file_queue, mutants, files =>
      match file_queue with
      | [] => .ok { mutants := mutants, files := files }
      | source_file :: queue_rest =>
          if options.interrupt tick then .error .interrupted
          else
            match walk_file fs root source_file error_exprs with
            | .error e => .error e
            | .ok fd =>
                match enqueue_found env source_file.package fd.more_files with
                | .error e => .error e
                | .ok new_files =>
                    let queue' := queue_rest ++ new_files
                    let path := source_file.tree_relative_path
                    if examine_glob_skips options path then
                      walk_loop fs env root options error_exprs fuel
                        (tick + 1) queue' mutants files
                    else if exclude_glob_skips options path then
                      walk_loop fs env root options error_exprs fuel
                        (tick + 1) queue' mutants files
                    else
                      walk_loop fs env root options error_exprs fuel
                        (tick + 1) queue'
                        (mutants ++ name_filters options fd.mutants)
                        (files ++ [source_file])

/-- `walk_tree`: pre-parse the configured error expressions, then drive the
queue loop from the adapter-provided entry files. -/
def walk_tree (fs : FileSystem) (env : FileEnv) (root : FsPath)
    (top_source_files : List SourceFile) (options : Options) (fuel : Nat) :
    Except WalkError Discovered :=
  match parse_error_exprs options.error_values with
  | .error e => .error e
  | .ok error_exprs =>
      walk_loop fs env root options error_exprs fuel 0 top_source_files [] []

/-! ## Printer infrastructure lemmas -/

/-- Last character of a string. -/
def lastChar (b : String) : Option Char :=
  b.data.reverse.head?

theorem string_ext {a b : String} (h : a.data = b.data) : a = b := by
  cases a; cases b; exact congrArg String.mk h

theorem string_push_eq_append (b : String) (c : Char) :
    b.push c = b ++ String.singleton c := by
  apply string_ext
  simp [String.data_push, String.data_append, String.singleton]

theorem data_ne_nil_of_ne_empty {w : String} (h : w ≠ "") : w.data ≠ [] := by
  intro hd
  exact h (string_ext (by simp [hd]))

theorem lastChar_append {b w : String} (h : w ≠ "") :
    lastChar (b ++ w) = lastChar w := by
  unfold lastChar
  rw [String.data_append, List.reverse_append]
  exact List.head?_append_of_ne_nil _
    (by simpa using data_ne_nil_of_ne_empty h)

theorem lastChar_empty : lastChar "" = none := rfl

theorem endsWithArrow_push (b : String) (c : Char) :
    endsWithArrow (b.push c) = (c == '>' && (lastChar b == some '-')) := by
  unfold endsWithArrow lastChar
  rw [String.data_push, List.reverse_append]
  cases hb : b.data.reverse with
  | nil => simp
  | cons d tail => simp

/-- What one printer step appends to the buffer; `dash` records whether the
buffer currently ends with `-`. -/
def stepStr (t : Tok) (peek : Option Tok) (dash : Bool) : String :=
  match t with
  | .punct c =>
      if peek.isSome && ((c == '>' && dash) || c == ',' || c == ';') then
        (String.singleton c).push ' '
      else String.singleton c
  | .ident s => if spaceAfterWord peek then s.push ' ' else s
  | .lit s => if spaceAfterWord peek then s.push ' ' else s
  | .group d inner => delimOpen d "" ++ pttList inner "" ++ delimClose d ""

theorem delimOpen_eq_append (d : Delim) (b : String) :
    delimOpen d b = b ++ delimOpen d "" := by
  cases d <;>
    simp [delimOpen, string_push_eq_append, String.append_empty,
      String.empty_append]

theorem delimClose_eq_append (d : Delim) (b : String) :
    delimClose d b = b ++ delimClose d "" := by
  cases d <;>
    simp [delimClose, string_push_eq_append, String.append_empty,
      String.empty_append]

/-- Each printer step appends a suffix that depends on the buffer only
through whether it ends in a dash. -/
theorem pttStep_eq (t : Tok) (peek : Option Tok) (b : String) :
    pttStep t peek b = b ++ stepStr t peek (lastChar b == some '-') := by
  cases t with
  | punct c =>
      rw [pttStep, stepStr]
      rw [endsWithArrow_push]
      by_cases hcond :
          (peek.isSome && ((c == '>' && (lastChar b == some '-')) ||
            c == ',' || c == ';')) = true
      · rw [if_pos hcond, if_pos hcond, string_push_eq_append,
          string_push_eq_append, string_push_eq_append, String.append_assoc]
      · rw [if_neg hcond, if_neg hcond, string_push_eq_append]
  | ident s =>
      rw [pttStep, stepStr]
      by_cases hsp : spaceAfterWord peek = true
      · rw [if_pos hsp, if_pos hsp, string_push_eq_append,
          string_push_eq_append, String.append_assoc]
      · rw [if_neg hsp, if_neg hsp]
  | lit s =>
      rw [pttStep, stepStr]
      by_cases hsp : spaceAfterWord peek = true
      · rw [if_pos hsp, if_pos hsp, string_push_eq_append,
          string_push_eq_append, String.append_assoc]
      · rw [if_neg hsp, if_neg hsp]
  | group d inner =>
      rw [pttStep, stepStr]
      rw [delimClose_eq_append, delimOpen_eq_append, String.append_assoc,
        String.append_assoc, String.append_assoc]

theorem pttList_nil (b : String) : pttList [] b = b := by
  rw [pttList]

theorem pttList_cons (t : Tok) (ts : List Tok) (b : String) :
    pttList (t :: ts) b = pttList ts (pttStep t ts.head? b) := by
  rw [pttList]

/-- The printer's output is the buffer followed by a suffix that depends on
the buffer only through whether it ends in a dash. -/
theorem pttList_shift (ts : List Tok) :
    ∀ b1 b2 : String, (lastChar b1 == some '-') = (lastChar b2 == some '-') →
      ∃ s : String, pttList ts b1 = b1 ++ s ∧ pttList ts b2 = b2 ++ s := by
  induction ts with
  | nil =>
      intro b1 b2 _
      exact ⟨"", by simp [pttList_nil, String.append_empty]⟩
  | cons t rest ih =>
      intro b1 b2 h
      rw [pttList_cons, pttList_cons, pttStep_eq, pttStep_eq, h]
      set w := stepStr t rest.head? (lastChar b2 == some '-') with hw
      have h' : (lastChar (b1 ++ w) == some '-') =
          (lastChar (b2 ++ w) == some '-') := by
        by_cases hempty : w = ""
        · rw [hempty, String.append_empty, String.append_empty]; exact h
        · rw [lastChar_append hempty, lastChar_append hempty]
      obtain ⟨s, h1, h2⟩ := ih (b1 ++ w) (b2 ++ w) h'
      exact ⟨w ++ s, by rw [h1, String.append_assoc],
        by rw [h2, String.append_assoc]⟩

/-- Render with a buffer that does not end in `-`: the buffer is a plain
prefix of the result. -/
theorem pttList_buffer (ts : List Tok) (b : String)
    (h : (lastChar b == some '-') = false) :
    pttList ts b = b ++ pttList ts "" := by
  obtain ⟨s, h1, h2⟩ := pttList_shift ts b ""
    (by rw [h, lastChar_empty]; rfl)
  rw [h1, h2, String.empty_append]

theorem string_append_cancel_right {a b c : String} (h : a ++ c = b ++ c) :
    a = b := by
  apply string_ext
  have h2 : a.data ++ c.data = b.data ++ c.data := by
    have := congrArg String.data h
    simpa [String.data_append] using this
  exact List.append_cancel_right h2

theorem string_append_cancel_left {a b c : String} (h : a ++ b = a ++ c) :
    b = c := by
  apply string_ext
  have h2 : a.data ++ b.data = a.data ++ c.data := by
    have := congrArg String.data h
    simpa [String.data_append] using this
  exact List.append_cancel_left h2

/-- The printer loop for a list whose final token will be peeked against
`pk`; splits a concatenation at a token boundary. -/
def pttListP : List Tok → Option Tok → String → String
  | [], _, b => b
  | [t], pk, b => pttStep t pk b
  | t :: r :: rs, pk, b => pttListP (r :: rs) pk (pttStep t (some r) b)

theorem pttListP_none (ts : List Tok) (b : String) :
    pttListP ts none b = pttList ts b := by
  induction ts generalizing b with
  | nil => rw [pttListP, pttList]
  | cons t rest ih =>
      cases rest with
      | nil =>
          rw [pttListP, pttList_cons, pttList_nil]
          rfl
      | cons r rs =>
          rw [pttListP, pttList_cons]
          exact ih _

theorem pttList_append (xs ys : List Tok) (b : String) :
    pttList (xs ++ ys) b = pttList ys (pttListP xs ys.head? b) := by
  induction xs generalizing b with
  | nil => rw [pttListP, List.nil_append]
  | cons t rest ih =>
      cases rest with
      | nil =>
          cases ys with
          | nil =>
              rw [List.cons_append, List.nil_append, pttList_cons,
                pttList_nil, pttListP, pttList_nil]
          | cons y ys0 =>
              rw [List.cons_append, List.nil_append, pttList_cons, pttListP]
      | cons r rs =>
          rw [List.cons_append, pttList_cons, pttListP]
          rw [List.cons_append]
          exact ih _

/-- The last token of the list is an ident, a literal, or a group. -/
def endsWord (ts : List Tok) : Bool :=
  match ts.getLast? with
  | some (.ident _) | some (.lit _) | some (.group _ _) => true
  | _ => false

theorem spaceAfterWord_semi : spaceAfterWord (some (.punct ';')) = false := by
  decide

theorem spaceAfterWord_none : spaceAfterWord none = false := rfl

/-- A final peek at a `;` makes no difference when the list ends in an
ident, literal, or group: `;` is in the printer's no-space set. -/
theorem pttListP_semi (ts : List Tok) (h : endsWord ts = true) (b : String) :
    pttListP ts (some (.punct ';')) b = pttList ts b := by
  induction ts generalizing b with
  | nil => simp [endsWord] at h
  | cons t rest ih =>
      cases rest with
      | nil =>
          rw [pttListP, pttList_cons, pttList_nil]
          cases t with
          | punct c => simp [endsWord] at h
          | ident s =>
              rw [pttStep, pttStep]
              rw [spaceAfterWord_semi]
              rfl
          | lit s =>
              rw [pttStep, pttStep]
              rw [spaceAfterWord_semi]
              rfl
          | group d inner => rw [pttStep, pttStep]
      | cons r rs =>
          rw [pttListP, pttList_cons]
          exact ih (by simpa [endsWord] using h) _

/-! ## Shape lemmas: the printer on the synthesized replacement forms -/

theorem stepStr_punct_plain (c : Char) (peek : Option Tok) (dash : Bool)
    (h1 : (c == '>') = false) (h2 : (c == ',') = false)
    (h3 : (c == ';') = false) :
    stepStr (.punct c) peek dash = String.singleton c := by
  simp [stepStr, h1, h2, h3]

theorem stepStr_ident (s : String) (peek : Option Tok) (dash : Bool)
    (h : spaceAfterWord peek = false) : stepStr (.ident s) peek dash = s := by
  simp [stepStr, h]

theorem stepStr_lit (s : String) (peek : Option Tok) (dash : Bool)
    (h : spaceAfterWord peek = false) : stepStr (.lit s) peek dash = s := by
  simp [stepStr, h]

theorem stepStr_group (d : Delim) (inner : List Tok) (peek : Option Tok)
    (dash : Bool) :
    stepStr (.group d inner) peek dash =
      delimOpen d "" ++ pttList inner "" ++ delimClose d "" := rfl

theorem pretty_group (d : Delim) (r : List Tok) :
    tokens_to_pretty_string [.group d r] =
      delimOpen d "" ++ tokens_to_pretty_string r ++ delimClose d "" := by
  unfold tokens_to_pretty_string
  rw [pttList_cons, pttList_nil, pttStep_eq, stepStr_group,
    String.empty_append]

theorem pretty_call (n : String) (r : List Tok) :
    tokens_to_pretty_string [.ident n, .group .paren r] =
      n ++ "(" ++ tokens_to_pretty_string r ++ ")" := by
  unfold tokens_to_pretty_string
  rw [pttList_cons, List.head?_cons, pttStep_eq,
    stepStr_ident _ _ _ (by rfl)]
  rw [pttList_cons, pttList_nil, pttStep_eq, stepStr_group]
  apply string_ext
  simp [String.data_append, delimOpen, delimClose, String.data_push]

theorem pretty_path_call (k m : String) (r : List Tok) :
    tokens_to_pretty_string [.ident k, .punct ':', .punct ':', .ident m,
        .group .paren r] =
      k ++ "::" ++ m ++ "(" ++ tokens_to_pretty_string r ++ ")" := by
  unfold tokens_to_pretty_string
  rw [pttList_cons, List.head?_cons, pttStep_eq,
    stepStr_ident _ _ _ (by decide)]
  rw [pttList_cons, List.head?_cons, pttStep_eq,
    stepStr_punct_plain _ _ _ (by decide) (by decide) (by decide)]
  rw [pttList_cons, List.head?_cons, pttStep_eq,
    stepStr_punct_plain _ _ _ (by decide) (by decide) (by decide)]
  rw [pttList_cons, List.head?_cons, pttStep_eq,
    stepStr_ident _ _ _ (by rfl)]
  rw [pttList_cons, pttList_nil, pttStep_eq, stepStr_group]
  apply string_ext
  simp [String.data_append, String.singleton, delimOpen, delimClose,
    String.data_push]

theorem pretty_vec (r : List Tok) :
    tokens_to_pretty_string [.ident "vec", .punct '!', .group .bracket r] =
      "vec![" ++ tokens_to_pretty_string r ++ "]" := by
  unfold tokens_to_pretty_string
  rw [pttList_cons, List.head?_cons, pttStep_eq,
    stepStr_ident _ _ _ (by decide)]
  rw [pttList_cons, List.head?_cons, pttStep_eq,
    stepStr_punct_plain _ _ _ (by decide) (by decide) (by decide)]
  rw [pttList_cons, pttList_nil, pttStep_eq, stepStr_group]
  apply string_ext
  simp [String.data_append, String.singleton, delimOpen, delimClose,
    String.data_push]

theorem pretty_amp (r : List Tok) :
    tokens_to_pretty_string (.punct '&' :: r) =
      "&" ++ tokens_to_pretty_string r := by
  unfold tokens_to_pretty_string
  rw [pttList_cons, pttStep_eq, stepStr_punct_plain _ _ _ (by decide)
    (by decide) (by decide), String.empty_append]
  have h1 : String.singleton '&' = "&" := by decide
  rw [h1]
  exact pttList_buffer r "&" (by decide)

/-! ## Well-formed token streams and printer progress -/

mutual

/-- Well-formedness of one token, mirroring what `proc_macro2` guarantees:
punctuation characters are never a space, identifier and literal renderings
are nonempty and do not end in a space, and a `None`-delimited group is
nonempty (recursively). -/
def wfTok (t : Tok) : Bool :=
  match t with
  | .punct c => c != ' '
  | .ident s => s != "" && lastChar s != some ' '
  | .lit s => s != "" && lastChar s != some ' '
  | .group d inner =>
      match d with
      | .nDelim => !inner.isEmpty && wfToks inner
      | _ => true
termination_by sizeOf t
decreasing_by all_goals (simp_wf; try omega)

/-- Well-formedness of every token of a stream. -/
def wfToks (ts : List Tok) : Bool :=
  match ts with
  | [] => true
  | t :: rest => wfTok t && wfToks rest
termination_by sizeOf ts
decreasing_by all_goals (simp_wf; try omega)

end

theorem singleton_ne_empty (c : Char) : String.singleton c ≠ "" := by
  intro h
  have := congrArg String.data h
  simp [String.singleton] at this

theorem lastChar_singleton (c : Char) :
    lastChar (String.singleton c) = some c := by
  simp [lastChar, String.singleton]

/-- Printer progress: a nonempty well-formed stream strictly extends the
buffer, and the appended suffix does not end with a space. -/
theorem pretty_progress_aux (n : Nat) : ∀ (ts : List Tok), sizeOf ts ≤ n →
    wfToks ts = true → ts ≠ [] → ∀ b : String, ∃ s : String,
      pttList ts b = b ++ s ∧ s ≠ "" ∧ lastChar s ≠ some ' ' := by
  induction n using Nat.strong_induction_on with
  | _ n ih =>
    intro ts hsize hwf hne b
    match ts, hne with
    | t :: rest, _ =>
      have hwt : wfTok t = true ∧ wfToks rest = true := by
        rw [wfToks] at hwf
        exact ⟨(Bool.and_eq_true _ _).mp hwf |>.1,
          (Bool.and_eq_true _ _).mp hwf |>.2⟩
      cases hr : rest with
      | nil =>
          subst hr
          rw [pttList_cons, pttList_nil, pttStep_eq]
          refine ⟨stepStr t none (lastChar b == some '-'), rfl, ?_⟩
          cases t with
          | punct c =>
              rw [stepStr]
              rw [if_neg (by simp)]
              refine ⟨singleton_ne_empty c, ?_⟩
              rw [lastChar_singleton]
              intro hcon
              have : c = ' ' := by simpa using hcon
              rw [wfTok] at hwt
              simp [this] at hwt
          | ident s =>
              rw [stepStr]
              rw [if_neg (by rw [spaceAfterWord_none]; simp)]
              rw [wfTok] at hwt
              obtain ⟨h1, h2⟩ := (Bool.and_eq_true _ _).mp hwt.1
              exact ⟨by simpa using h1, by simpa using h2⟩
          | lit s =>
              rw [stepStr]
              rw [if_neg (by rw [spaceAfterWord_none]; simp)]
              rw [wfTok] at hwt
              obtain ⟨h1, h2⟩ := (Bool.and_eq_true _ _).mp hwt.1
              exact ⟨by simpa using h1, by simpa using h2⟩
          | group d inner =>
              rw [stepStr_group]
              cases d with
              | nDelim =>
                  rw [wfTok] at hwt
                  have hin := hwt.1
                  simp only [Bool.and_eq_true, Bool.not_eq_true'] at hin
                  have hinne : inner ≠ [] := by
                    intro hcon
                    rw [hcon] at hin
                    simp [List.isEmpty] at hin
                  have hsz : sizeOf inner < n := by
                    have : sizeOf inner <
                        sizeOf ([Tok.group Delim.nDelim inner]) := by
                      simp; omega
                    omega
                  obtain ⟨s, hs1, hs2, hs3⟩ := ih (sizeOf inner)
                    hsz inner (le_refl _) hin.2 hinne ""
                  rw [delimOpen, delimClose, hs1, String.empty_append,
                    String.empty_append, String.append_empty]
                  exact ⟨hs2, hs3⟩
              | brace =>
                  have hcl : delimClose Delim.brace "" = "\x7d" := by decide
                  rw [delimClose_eq_append, hcl]
                  constructor
                  · intro hcon
                    have := congrArg String.data hcon
                    simp [String.data_append] at this
                  · rw [lastChar_append (by decide)]
                    decide
              | bracket =>
                  have hcl : delimClose Delim.bracket "" = "]" := by decide
                  rw [delimClose_eq_append, hcl]
                  constructor
                  · intro hcon
                    have := congrArg String.data hcon
                    simp [String.data_append] at this
                  · rw [lastChar_append (by decide)]
                    decide
              | paren =>
                  have hcl : delimClose Delim.paren "" = ")" := by decide
                  rw [delimClose_eq_append, hcl]
                  constructor
                  · intro hcon
                    have := congrArg String.data hcon
                    simp [String.data_append] at this
                  · rw [lastChar_append (by decide)]
                    decide
      | cons r0 rs =>
          subst hr
          rw [pttList_cons, pttStep_eq]
          have hless : sizeOf (r0 :: rs) < sizeOf (t :: r0 :: rs) := by
            simp
          obtain ⟨s, hs1, hs2, hs3⟩ := ih (sizeOf (r0 :: rs))
            (by omega) (r0 :: rs) (le_refl _) hwt.2 (by simp)
            (b ++ stepStr t (r0 :: rs).head? (lastChar b == some '-'))
          refine ⟨stepStr t (r0 :: rs).head? (lastChar b == some '-') ++ s,
            ?_, ?_, ?_⟩
          · rw [hs1, String.append_assoc]
          · intro hcon
            apply hs2
            have hd := congrArg String.data hcon
            simp only [String.data_append] at hd
            have h0 : s.data = [] := (List.append_eq_nil.mp
              (by simpa using hd)).2
            exact string_ext (by simpa using h0)
          · rw [lastChar_append hs2]
            exact hs3

/-- No trailing space for well-formed streams. -/
theorem pretty_no_trailing_space (ts : List Tok) (h : wfToks ts = true) :
    lastChar (tokens_to_pretty_string ts) ≠ some ' ' := by
  cases hne : ts with
  | nil =>
      rw [tokens_to_pretty_string, pttList_nil]
      simp [lastChar]
  | cons t rest =>
      obtain ⟨s, hs1, _, hs3⟩ := pretty_progress_aux (sizeOf (t :: rest))
        (t :: rest) (le_refl _) (by rw [← hne]; exact h) (by simp) ""
      rw [tokens_to_pretty_string, hs1, String.empty_append]
      exact hs3

/-- Splitting the body of an array replacement at its `;`. -/
theorem pretty_semi_append (r len : List Tok) (hr : endsWord r = true) :
    pttList (r ++ .punct ';' :: len) "" =
      pttList len (tokens_to_pretty_string r ++
        (if len.isEmpty then ";" else "; ")) := by
  rw [pttList_append, List.head?_cons, pttListP_semi r hr]
  rw [pttList_cons]
  congr 1
  rw [pttStep_eq]
  cases len with
  | nil =>
      rw [stepStr]
      rw [if_neg (by simp)]
      have : String.singleton ';' = ";" := by decide
      rw [this, tokens_to_pretty_string]
      simp [List.isEmpty]
  | cons l0 ls =>
      rw [stepStr]
      rw [if_pos (by simp)]
      have : (String.singleton ';').push ' ' = "; " := by decide
      rw [this, tokens_to_pretty_string]
      simp [List.isEmpty]

/-- Injectivity of the array wrapper `[r; len]` in the rendered `r`. -/
theorem pretty_array_inj {r1 r2 len : List Tok}
    (h1 : endsWord r1 = true) (h2 : endsWord r2 = true)
    (heq : tokens_to_pretty_string
        [.group .bracket (r1 ++ .punct ';' :: len)] =
      tokens_to_pretty_string [.group .bracket (r2 ++ .punct ';' :: len)]) :
    tokens_to_pretty_string r1 = tokens_to_pretty_string r2 := by
  rw [pretty_group, pretty_group] at heq
  have hbody : tokens_to_pretty_string (r1 ++ .punct ';' :: len) =
      tokens_to_pretty_string (r2 ++ .punct ';' :: len) :=
    string_append_cancel_left (string_append_cancel_right heq)
  rw [tokens_to_pretty_string, tokens_to_pretty_string,
    pretty_semi_append r1 len h1, pretty_semi_append r2 len h2] at hbody
  cases hl : len with
  | nil =>
      rw [hl] at hbody
      rw [pttList_nil, pttList_nil] at hbody
      exact string_append_cancel_right hbody
  | cons l0 ls =>
      rw [hl] at hbody
      have hemp : ((l0 :: ls).isEmpty : Bool) = false := by
        simp [List.isEmpty]
      rw [if_neg (by simp [hemp])] at hbody
      obtain ⟨s, e1, e2⟩ := pttList_shift (l0 :: ls)
        (tokens_to_pretty_string r1 ++ "; ")
        (tokens_to_pretty_string r2 ++ "; ")
        (by rw [lastChar_append (by decide), lastChar_append (by decide)])
      rw [e1, e2] at hbody
      have := string_append_cancel_right hbody
      exact string_append_cancel_right this

/-! ## Claim theorems -/

/-- C6: the walker checks the cooperative interruption flag at the top of
every file iteration; when the flag is set and a file is pending, the loop
returns the cancellation failure, so the caller observes only the failure
and none of the previously collected mutants or files. -/
theorem C6_interrupt_discards (fs : FileSystem) (env : FileEnv)
    (root : FsPath) (options : Options) (errs : List (List Tok))
    (fuel tick : Nat) (sf : SourceFile) (queue : List SourceFile)
    (mutants : List Mutant) (files : List SourceFile)
    (hint : options.interrupt tick = true) :
    walk_loop fs env root options errs (fuel + 1) tick (sf :: queue) mutants
      files = .error .interrupted := by
  rw [walk_loop]
  rw [hint]
  simp

/-- An option set whose interruption flag is always set. -/
def optsInterrupted : Options :=
  { error_values := [], examine_globset := none, exclude_globset := none
    examine_names := none, exclude_names := none, interrupt := fun _ => true }

/-- A parsed but empty source file. -/
def sfEmpty : SourceFile :=
  { tree_relative_path := ["lib.rs"], package := "p", code := .parsed [] }

/-- Witness for C6: with the flag raised and one pending file (and nonempty
previously collected output), the walk yields exactly the interruption
error. -/
theorem C6_interrupt_discards_witness :
    optsInterrupted.interrupt 0 = true ∧
      walk_loop ⟨fun _ => false⟩ ⟨fun _ => none⟩ [] optsInterrupted [] 1 0
        [sfEmpty] [] [sfEmpty] = .error .interrupted :=
  ⟨rfl, C6_interrupt_discards ⟨fun _ => false⟩ ⟨fun _ => none⟩ []
    optsInterrupted [] 0 0 sfEmpty [] [] [sfEmpty] rfl⟩

/-- C10: an `examine_names` option that is present but empty removes no
mutants (an empty include set keeps everything rather than excluding
everything, even though an empty regex set matches nothing), and likewise an
empty `exclude_names` set removes nothing. -/
theorem C10_empty_name_filters (options : Options) (ms : List Mutant)
    (hex : ∀ ns, options.examine_names = some ns → ns.is_empty = true)
    (hexc : ∀ ns, options.exclude_names = some ns → ns.is_empty = true) :
    name_filters options ms = ms := by
  unfold name_filters
  cases h1 : options.examine_names with
  | none =>
      cases h2 : options.exclude_names with
      | none => rfl
      | some ns =>
          dsimp only
          rw [hexc ns h2]
          simp
  | some ns =>
      dsimp only
      rw [hex ns h1]
      cases h2 : options.exclude_names with
      | none => simp
      | some ns2 =>
          dsimp only
          rw [hexc ns2 h2]
          simp

/-- An option set with empty name-regex sets whose matchers match nothing:
without the emptiness guards the include filter would drop every mutant. -/
def optsEmptyNames : Options :=
  { error_values := [], examine_globset := none, exclude_globset := none
    examine_names := some ⟨true, fun _ => false⟩
    exclude_names := some ⟨true, fun _ => false⟩, interrupt := fun _ => false }

/-- A sample mutant for the C10 witness. -/
def mutC10 : Mutant :=
  { source_file := sfEmpty, function_name := "f", return_type := ""
    replacement := "()", genre := .FnValue }

/-- Witness for C10: both sets present and empty, with matchers that match
nothing, and the filter keeps the whole mutant list. -/
theorem C10_empty_name_filters_witness :
    optsEmptyNames.examine_names = some ⟨true, fun _ => false⟩ ∧
      name_filters optsEmptyNames [mutC10] = [mutC10] :=
  ⟨rfl, C10_empty_name_filters optsEmptyNames [mutC10]
    (fun ns h => by cases h; rfl) (fun ns h => by cases h; rfl)⟩

/-- `#[cfg(any(test))]`: path `cfg`, whose nested meta is the single item
`any` carrying a parenthesized list that contains the bare path `test`. -/
def cfgAnyTest : Attr :=
  { path := ["cfg"]
    args := .list [.meta ["any"] (.parenArgs [.meta ["test"] .noTrailing])] }

/-- `#[cfg(test)]`: path `cfg` with the single bare nested path `test`. -/
def cfgTest : Attr :=
  { path := ["cfg"], args := .list [.meta ["test"] .noTrailing] }

/-- C2: on `#[cfg(any(test))]` the predicate returns false — the nested-meta
walk's callback never consumes the `(test)` argument list of `any`, so
parsing fails after that item and the function takes its error path — even
though the nested meta contains the identifier `test`; so an item carrying
only this attribute is not skipped.  On the flat `#[cfg(test)]` it returns
true.  This contradicts the claim (and the function's own documentation,
"has `test` anywhere in it"). -/
theorem C2_cfg_any_test_not_skipped :
    attr_is_cfg_test cfgAnyTest = false ∧
      nested_meta_contains_test cfgAnyTest = true ∧
      attrs_excluded [cfgAnyTest] = false ∧
      attr_is_cfg_test cfgTest = true := by
  refine ⟨by decide, ?_, by decide, by decide⟩
  simp [nested_meta_contains_test, cfgAnyTest, metaItemsContainTest,
    metaItemContainsTest]

/-- C5 counterexample: on the token sequence `,` followed by an empty
`None`-delimited group, the printer appends a space after the comma (more
tokens follow) and the group then renders nothing, so the output is `", "`,
which ends with a space. -/
theorem C5_counterexample :
    tokens_to_pretty_string [.punct ',', .group .nDelim []] = ", " ∧
      lastChar (tokens_to_pretty_string [.punct ',', .group .nDelim []]) =
        some ' ' := by
  have h : tokens_to_pretty_string [.punct ',', .group .nDelim []] = ", " := by
    unfold tokens_to_pretty_string
    rw [pttList_cons, List.head?_cons, pttStep_eq, stepStr]
    rw [pttList_cons, pttList_nil, pttStep_eq, stepStr_group, pttList_nil]
    decide
  exact ⟨h, by rw [h]; decide⟩

/-- C5 (amended): for every token sequence whose punctuation characters are
not spaces, whose identifier and literal renderings are nonempty and do not
end with a space (as `proc_macro2` guarantees for real token streams), and
whose `None`-delimited groups are nonempty, the pretty-printed string does
not end with a space character. -/
theorem C5_no_trailing_space (ts : List Tok) (h : wfToks ts = true) :
    lastChar (tokens_to_pretty_string ts) ≠ some ' ' :=
  pretty_no_trailing_space ts h

/-- Witness for C5: a concrete well-formed stream (`,` then an ident) whose
rendering `", a"` indeed does not end with a space. -/
theorem C5_no_trailing_space_witness :
    wfToks [.punct ',', .ident "a"] = true ∧
      lastChar (tokens_to_pretty_string [.punct ',', .ident "a"]) ≠
        some ' ' :=
  ⟨by simp only [wfToks, wfTok]; decide,
    C5_no_trailing_space [.punct ',', .ident "a"]
      (by simp only [wfToks, wfTok]; decide)⟩

/-- Modelled from the spec: §4.5's search directory — the parent's directory
when the parent's file name is `mod.rs`, `lib.rs` or `main.rs`, otherwise
the parent path with its extension stripped. -/
def searchDirSpec (parent_path : FsPath) : FsPath :=
  if fileName parent_path == some "mod.rs" ||
      fileName parent_path == some "lib.rs" ||
      fileName parent_path == some "main.rs" then
    parentPath parent_path
  else
    with_extension_empty parent_path

/-- C7: the resolver determines the spec's search directory `D`, probes
`D/<name>.rs` then `D/<name>/mod.rs` in that order, and returns the first
that exists as a regular file; when neither exists it returns successfully
with no path, and `walk_file` still succeeds on the parent — an unresolved
`mod` reference is never a fatal error. -/
theorem C7_find_mod_source (fs : FileSystem) (root : FsPath)
    (parent : SourceFile) (mod_name : String) :
    (find_mod_source fs root parent mod_name =
      if fs.is_file (root ++ (searchDirSpec parent.tree_relative_path ++
          [mod_name ++ ".rs"])) then
        some (searchDirSpec parent.tree_relative_path ++ [mod_name ++ ".rs"])
      else if fs.is_file (root ++ (searchDirSpec parent.tree_relative_path ++
          [mod_name, "mod.rs"])) then
        some (searchDirSpec parent.tree_relative_path ++
          [mod_name, "mod.rs"])
      else none) ∧
    ∀ (errs : List (List Tok)) (items : List Item),
      parent.code = .parsed items →
      walk_file fs root parent errs = .ok
        { mutants := (visit_file parent errs items).mutants
          more_files :=
            (visit_file parent errs items).external_mods.filterMap
              (fun nm => find_mod_source fs root parent nm) } := by
  constructor
  · rfl
  · intro errs items hcode
    rw [walk_file, hcode]

/-- Witness for C7: an empty filesystem resolves nothing, and walking an
empty parsed file still succeeds with no discoveries. -/
theorem C7_find_mod_source_witness :
    find_mod_source ⟨fun _ => false⟩ [] sfEmpty "m" = none ∧
      walk_file ⟨fun _ => false⟩ [] sfEmpty [] = .ok ⟨[], []⟩ := by
  have h := C7_find_mod_source ⟨fun _ => false⟩ [] sfEmpty "m"
  constructor
  · rw [h.1]
    simp
  · rw [h.2 [] [] rfl]
    simp [visit_file, visit_items, find_mod_source]

/-- `unsafe fn f() { mod m; }`: a function skipped by the §4.4 rules whose
body declares an external module. -/
def fnUnsafeWithMod : Item :=
  .fnItem [] true "f" .default [.itemStmt (.modItem [] "m" none)]

/-- A file consisting of that one skipped function. -/
def sfC3 : SourceFile :=
  { tree_relative_path := ["lib.rs"], package := "p"
    code := .parsed [fnUnsafeWithMod] }

/-- C3 counterexample: visiting a file whose only item is the skipped
`unsafe fn f() { mod m; }` yields no mutants and — contrary to the claim —
no external-module discovery for `m` either: the visitor returns before
recursing into a skipped function's body, so `external_mods` is empty. -/
theorem C3_counterexample :
    (visit_file sfC3 [] [fnUnsafeWithMod]).external_mods = [] ∧
      (visit_file sfC3 [] [fnUnsafeWithMod]).mutants = [] := by
  constructor <;>
    simp [visit_file, visit_items, visit_item, fnUnsafeWithMod,
      fn_sig_excluded]

/-- C3 (amended): a function skipped by the §4.4 rules produces zero mutants
and is skipped entirely — the visitor does not recurse into its body at all,
so nested modules and impls inside it contribute neither mutants nor
external-module discoveries, and the visitor state is unchanged; likewise
for impl methods, which are additionally skipped when named `new`. -/
theorem C3_skipped_fn_inert (sf : SourceFile) (errs : List (List Tok))
    (attrs : List Attr) (unsafety : Bool) (nm : String) (output : RetTy)
    (body : List Stmt) (v : DiscoveryVisitor) :
    ((fn_sig_excluded unsafety || attrs_excluded attrs ||
        block_is_empty body) = true →
      visit_item sf errs (.fnItem attrs unsafety nm output body) v = v) ∧
    ((fn_sig_excluded unsafety || attrs_excluded attrs || (nm == "new") ||
        block_is_empty body) = true →
      visit_impl_members sf errs [.methodItem attrs unsafety nm output body]
        v = v) := by
  constructor
  · intro h
    rw [visit_item, if_pos h]
  · intro h
    rw [visit_impl_members, if_pos h, visit_impl_members]

/-- Witness for C3 (amended): the concrete skipped function above leaves the
empty visitor state untouched. -/
theorem C3_skipped_fn_inert_witness :
    (fn_sig_excluded true || attrs_excluded [] ||
        block_is_empty [.itemStmt (.modItem [] "m" none)]) = true ∧
      visit_item sfC3 [] fnUnsafeWithMod ⟨[], [], []⟩ = ⟨[], [], []⟩ :=
  ⟨by decide,
    (C3_skipped_fn_inert sfC3 [] [] true "f" .default
      [.itemStmt (.modItem [] "m" none)] ⟨[], [], []⟩).1 (by decide)⟩

/-- C4: when the popped file is excluded by the examine or exclude globset,
the loop still enqueues the source files resolved from the file's `mod`
references (module resolution happens before the filter checks), while the
file contributes no mutants and is omitted from the files list — the state
continues with the same mutants and files and the extended queue, so glob
filtering never prunes module traversal. -/
theorem C4_glob_filter_keeps_traversal (fs : FileSystem) (env : FileEnv)
    (root : FsPath) (options : Options) (errs : List (List Tok))
    (fuel tick : Nat) (sf : SourceFile) (queue : List SourceFile)
    (mutants : List Mutant) (files : List SourceFile)
    (fd : FileDiscoveries) (news : List SourceFile)
    (hint : options.interrupt tick = false)
    (hwalk : walk_file fs root sf errs = .ok fd)
    (hnew : enqueue_found env sf.package fd.more_files = .ok news)
    (hskip : examine_glob_skips options sf.tree_relative_path = true ∨
      exclude_glob_skips options sf.tree_relative_path = true) :
    walk_loop fs env root options errs (fuel + 1) tick (sf :: queue) mutants
        files =
      walk_loop fs env root options errs fuel (tick + 1) (queue ++ news)
        mutants files := by
  rw [walk_loop, hint]
  rw [if_neg (by simp)]
  rw [hwalk]
  dsimp only
  rw [hnew]
  dsimp only
  rcases hskip with h | h
  · rw [if_pos h]
  · by_cases he : examine_glob_skips options sf.tree_relative_path = true
    · rw [if_pos he]
    · rw [if_neg he, if_pos h]

/-- Options whose examine globset matches nothing, so every file is
glob-excluded. -/
def optsC4 : Options :=
  { error_values := [], examine_globset := some ⟨fun _ => false⟩
    exclude_globset := none, examine_names := none, exclude_names := none
    interrupt := fun _ => false }

/-- Witness for C4: a glob-excluded empty file is dropped from the output
but the loop continues on the extended queue. -/
theorem C4_glob_filter_keeps_traversal_witness :
    examine_glob_skips optsC4 sfEmpty.tree_relative_path = true ∧
      walk_loop ⟨fun _ => false⟩ ⟨fun _ => none⟩ [] optsC4 [] 1 0 [sfEmpty]
          [] [] =
        walk_loop ⟨fun _ => false⟩ ⟨fun _ => none⟩ [] optsC4 [] 0 1 []
          [] [] :=
  ⟨rfl,
    C4_glob_filter_keeps_traversal ⟨fun _ => false⟩ ⟨fun _ => none⟩ []
      optsC4 [] 0 0 sfEmpty [] [] [] ⟨[], []⟩ [] rfl
      (by rw [walk_file]; simp [sfEmpty, visit_file, visit_items])
      rfl (Or.inl rfl)⟩

/-- Mutants added by `collect_fn_mutants` carry the visitor's source file. -/
theorem collect_fn_mutants_mem (sf : SourceFile) (errs : List (List Tok))
    (v : DiscoveryVisitor) (rt : RetTy) (m : Mutant)
    (hm : m ∈ (collect_fn_mutants sf errs v rt).mutants) :
    m ∈ v.mutants ∨ m.source_file = sf := by
  simp only [collect_fn_mutants] at hm
  split at hm
  · exact Or.inl hm
  · rcases List.mem_append.mp hm with h | h
    · exact Or.inl h
    · obtain ⟨rep, _, rfl⟩ := List.mem_map.mp h
      exact Or.inr rfl

/-- Every mutant accumulated by the visitor either was already present or
carries the visitor's source file: combined statement for the four mutually
recursive visit functions, by induction on size. -/
theorem visit_mutants_source (sf : SourceFile) (errs : List (List Tok)) :
    ∀ n : Nat,
      (∀ i : Item, sizeOf i ≤ n → ∀ v m,
        m ∈ (visit_item sf errs i v).mutants →
          m ∈ v.mutants ∨ m.source_file = sf) ∧
      (∀ ss : List Stmt, sizeOf ss ≤ n → ∀ v m,
        m ∈ (visit_stmts sf errs ss v).mutants →
          m ∈ v.mutants ∨ m.source_file = sf) ∧
      (∀ mem : List ImplMember, sizeOf mem ≤ n → ∀ v m,
        m ∈ (visit_impl_members sf errs mem v).mutants →
          m ∈ v.mutants ∨ m.source_file = sf) ∧
      (∀ its : List Item, sizeOf its ≤ n → ∀ v m,
        m ∈ (visit_items sf errs its v).mutants →
          m ∈ v.mutants ∨ m.source_file = sf) := by
  intro n
  induction n with
  | zero =>
      refine ⟨fun i hsize => ?_, fun ss hsize => ?_, fun mem hsize => ?_,
        fun its hsize => ?_⟩ <;>
        [cases i; cases ss; cases mem; cases its] <;> simp at hsize
  | succ n ihn =>
      obtain ⟨ihI, ihS, ihM, ihIt⟩ := ihn
      refine ⟨?_, ?_, ?_, ?_⟩
      · intro i hsize v m hm
        cases i with
        | fnItem attrs unsafety nm output body =>
            rw [visit_item] at hm
            split at hm
            · exact Or.inl hm
            · dsimp only at hm
              have hbody : sizeOf body ≤ n := by
                simp at hsize; omega
              rcases ihS body hbody _ m hm with h | h
              · rcases collect_fn_mutants_mem sf errs _ output m h with
                  h2 | h2
                · exact Or.inl h2
                · exact Or.inr h2
              · exact Or.inr h
        | implBlock attrs self_ty traitSegs members =>
            rw [visit_item] at hm
            split at hm
            · exact Or.inl hm
            · have hmem : sizeOf members ≤ n := by
                simp at hsize; omega
              cases traitSegs with
              | some tp =>
                  dsimp only at hm
                  split at hm
                  · exact Or.inl hm
                  · rcases ihM members hmem _ m hm with h | h
                    · exact Or.inl h
                    · exact Or.inr h
              | none =>
                  dsimp only at hm
                  rcases ihM members hmem _ m hm with h | h
                  · exact Or.inl h
                  · exact Or.inr h
        | modItem attrs nm content =>
            cases content with
            | none =>
                rw [visit_item] at hm
                split at hm
                · exact Or.inl hm
                · exact Or.inl hm
            | some its =>
                rw [visit_item] at hm
                split at hm
                · exact Or.inl hm
                · dsimp only at hm
                  have hits : sizeOf its ≤ n := by
                    simp at hsize; omega
                  rcases ihIt its hits _ m hm with h | h
                  · exact Or.inl h
                  · exact Or.inr h
        | otherItem =>
            rw [visit_item] at hm
            exact Or.inl hm
      · intro ss hsize v m hm
        cases ss with
        | nil =>
            rw [visit_stmts] at hm
            exact Or.inl hm
        | cons s rest =>
            have hrest : sizeOf rest ≤ n := by simp at hsize; omega
            cases s with
            | itemStmt i =>
                rw [visit_stmts] at hm
                have hi : sizeOf i ≤ n := by simp at hsize; omega
                rcases ihS rest hrest _ m hm with h | h
                · exact ihI i hi v m h
                · exact Or.inr h
            | otherStmt =>
                rw [visit_stmts] at hm
                exact ihS rest hrest v m hm
      · intro mem hsize v m hm
        cases mem with
        | nil =>
            rw [visit_impl_members] at hm
            exact Or.inl hm
        | cons mi rest =>
            have hrest : sizeOf rest ≤ n := by simp at hsize; omega
            cases mi with
            | methodItem attrs unsafety nm output body =>
                rw [visit_impl_members] at hm
                dsimp only at hm
                rcases ihM rest hrest _ m hm with h | h
                · split at h
                  · exact Or.inl h
                  · dsimp only at h
                    have hbody : sizeOf body ≤ n := by
                      simp at hsize; omega
                    rcases ihS body hbody _ m h with h2 | h2
                    · rcases collect_fn_mutants_mem sf errs _ output m h2
                        with h3 | h3
                      · exact Or.inl h3
                      · exact Or.inr h3
                    · exact Or.inr h2
                · exact Or.inr h
            | otherMember =>
                rw [visit_impl_members] at hm
                exact ihM rest hrest v m hm
      · intro its hsize v m hm
        cases its with
        | nil =>
            rw [visit_items] at hm
            exact Or.inl hm
        | cons i rest =>
            have hrest : sizeOf rest ≤ n := by simp at hsize; omega
            have hi : sizeOf i ≤ n := by simp at hsize; omega
            rw [visit_items] at hm
            rcases ihIt rest hrest _ m hm with h | h
            · exact ihI i hi v m h
            · exact Or.inr h

/-- Every mutant of a walked file carries that file. -/
theorem walk_file_mutants_source (fs : FileSystem) (root : FsPath)
    (sf : SourceFile) (errs : List (List Tok)) (fd : FileDiscoveries)
    (hok : walk_file fs root sf errs = .ok fd) :
    ∀ m ∈ fd.mutants, m.source_file = sf := by
  intro m hm
  rw [walk_file] at hok
  cases hcode : sf.code with
  | unparseable => rw [hcode] at hok; simp at hok
  | parsed items =>
      rw [hcode] at hok
      dsimp only at hok
      obtain rfl := (Except.ok.inj hok).symm
      have := (visit_mutants_source sf errs (sizeOf items)).2.2.2 items
        (le_refl _) ⟨[], [], []⟩ m (by simpa [visit_file] using hm)
      rcases this with h | h
      · simp at h
      · exact h

/-- The name filters only remove mutants. -/
theorem name_filters_subset (options : Options) (l : List Mutant)
    (m : Mutant) (hm : m ∈ name_filters options l) : m ∈ l := by
  unfold name_filters at hm
  dsimp only at hm
  split at hm
  · split at hm
    · have hm2 := (List.mem_filter.mp hm).1
      split at hm2
      · split at hm2
        · exact (List.mem_filter.mp hm2).1
        · exact hm2
      · exact hm2
    · split at hm
      · split at hm
        · exact (List.mem_filter.mp hm).1
        · exact hm
      · exact hm
  · split at hm
    · split at hm
      · exact (List.mem_filter.mp hm).1
      · exact hm
    · exact hm

/-- Queue-loop invariant: when every accumulated mutant's file is among the
accumulated files, the same holds of a successful result. -/
theorem walk_loop_source_inv (fs : FileSystem) (env : FileEnv)
    (root : FsPath) (options : Options) (errs : List (List Tok)) :
    ∀ (fuel tick : Nat) (queue : List SourceFile) (mutants : List Mutant)
      (files : List SourceFile) (d : Discovered),
      walk_loop fs env root options errs fuel tick queue mutants files =
        .ok d →
      (∀ m ∈ mutants, m.source_file ∈ files) →
      ∀ m ∈ d.mutants, m.source_file ∈ d.files := by
  intro fuel
  induction fuel with
  | zero =>
      intro tick queue mutants files d hok
      rw [walk_loop.eq_def] at hok
      simp at hok
  | succ fuel ih =>
      intro tick queue mutants files d hok hinv
      cases queue with
      | nil =>
          rw [walk_loop] at hok
          obtain rfl := Except.ok.inj hok
          exact hinv
      | cons sf rest =>
          rw [walk_loop] at hok
          dsimp only at hok
          by_cases hint : options.interrupt tick = true
          · rw [if_pos hint] at hok
            simp at hok
          · rw [if_neg hint] at hok
            cases hwalk : walk_file fs root sf errs with
            | error e =>
                rw [hwalk] at hok
                simp at hok
            | ok fd =>
                rw [hwalk] at hok
                dsimp only at hok
                cases hnew : enqueue_found env sf.package fd.more_files with
                | error e =>
                    rw [hnew] at hok
                    simp at hok
                | ok news =>
                    rw [hnew] at hok
                    dsimp only at hok
                    by_cases hex : examine_glob_skips options
                        sf.tree_relative_path = true
                    · rw [if_pos hex] at hok
                      exact ih _ _ _ _ _ hok hinv
                    · rw [if_neg hex] at hok
                      by_cases hexc : exclude_glob_skips options
                          sf.tree_relative_path = true
                      · rw [if_pos hexc] at hok
                        exact ih _ _ _ _ _ hok hinv
                      · rw [if_neg hexc] at hok
                        refine ih _ _ _ _ _ hok ?_
                        intro m hmem
                        rcases List.mem_append.mp hmem with h | h
                        · exact List.mem_append_left _ (hinv m h)
                        · have hsrc : m.source_file = sf :=
                            walk_file_mutants_source fs root sf errs fd hwalk
                              m (name_filters_subset options fd.mutants m h)
                          rw [hsrc]
                          exact List.mem_append_right _ (by simp)

/-- C8: in every `Discovered` value returned by a successful walk, the
source file of every mutant in the mutants list is an element of the files
list. -/
theorem C8_mutant_source_in_files (fs : FileSystem) (env : FileEnv)
    (root : FsPath) (tops : List SourceFile) (options : Options)
    (fuel : Nat) (d : Discovered)
    (hok : walk_tree fs env root tops options fuel = .ok d) :
    ∀ m ∈ d.mutants, m.source_file ∈ d.files := by
  rw [walk_tree] at hok
  cases hpe : parse_error_exprs options.error_values with
  | error e =>
      rw [hpe] at hok
      simp at hok
  | ok errs =>
      rw [hpe] at hok
      dsimp only at hok
      exact walk_loop_source_inv fs env root options errs fuel 0 tops [] [] d
        hok (by simp)

/-- Options with no filters and no interruption. -/
def optsPlain : Options :=
  { error_values := [], examine_globset := none, exclude_globset := none
    examine_names := none, exclude_names := none, interrupt := fun _ => false }

/-- Witness for C8: a successful walk of one empty file. -/
theorem C8_mutant_source_in_files_witness :
    walk_tree ⟨fun _ => false⟩ ⟨fun _ => none⟩ [] [sfEmpty] optsPlain 2 =
        .ok ⟨[], [sfEmpty]⟩ ∧
      ∀ m ∈ (Discovered.mk [] [sfEmpty]).mutants,
        m.source_file ∈ (Discovered.mk [] [sfEmpty]).files := by
  have hok : walk_tree ⟨fun _ => false⟩ ⟨fun _ => none⟩ [] [sfEmpty]
      optsPlain 2 = .ok ⟨[], [sfEmpty]⟩ := by
    rw [walk_tree]
    dsimp only [optsPlain, parse_error_exprs]
    show walk_loop ⟨fun _ => false⟩ ⟨fun _ => none⟩ [] optsPlain [] (1 + 1) 0
        [sfEmpty] [] [] = .ok ⟨[], [sfEmpty]⟩
    rw [walk_loop]
    rw [if_neg (by simp [optsPlain])]
    rw [show walk_file ⟨fun _ => false⟩ [] sfEmpty [] = .ok ⟨[], []⟩ from by
      rw [walk_file]; simp [sfEmpty, visit_file, visit_items]]
    dsimp only [enqueue_found]
    rw [show (1 : Nat) = 0 + 1 from rfl]
    dsimp only [List.nil_append]
    rw [walk_loop]
    dsimp only [examine_glob_skips, exclude_glob_skips, name_filters,
      optsPlain]
    rfl
  exact ⟨hok, C8_mutant_source_in_files ⟨fun _ => false⟩ ⟨fun _ => none⟩ []
    [sfEmpty] optsPlain 2 ⟨[], [sfEmpty]⟩ hok⟩

/-! ## C1: the Result arm of `type_replacements` -/

/-- A path satisfying `is_ident a` has `a` as its only, hence last,
segment identifier. -/
theorem is_ident_ends_with {p : RsPath} {a b : String}
    (ha : p.is_ident a = true) (hb : path_ends_with p b = true) : a = b := by
  rcases p with ⟨lc, segs⟩
  cases lc with
  | true => simp [RsPath.is_ident] at ha
  | false =>
    cases segs with
    | nil => simp [RsPath.is_ident] at ha
    | cons s rest =>
      cases rest with
      | cons s2 r2 => simp [RsPath.is_ident] at ha
      | nil =>
        rcases s with ⟨i, args⟩
        cases args with
        | angle gas => simp [RsPath.is_ident] at ha
        | parenArgs ts => simp [RsPath.is_ident] at ha
        | noArgs =>
          have hia : i = a := by simpa [RsPath.is_ident] using ha
          have hib : i = b := by
            simpa [path_ends_with, RsPath.lastSeg, RsPath.segments,
              RsSeg.identStr] using hb
          rw [← hia, hib]

/-- `is_ident` is false for any name other than the last segment's. -/
theorem is_ident_false_of_ends_with {p : RsPath} {b : String}
    (hb : path_ends_with p b = true) {a : String} (hne : (a == b) = false) :
    p.is_ident a = false := by
  cases h : p.is_ident a with
  | false => rfl
  | true =>
    have hab := is_ident_ends_with h hb
    subst hab
    simp at hne

/-- A path ending in a given identifier exposes a last segment with that
identifier. -/
theorem lastSeg_of_ends_with {p : RsPath} {b : String}
    (h : path_ends_with p b = true) :
    ∃ seg, p.lastSeg = some seg ∧ seg.identStr = b := by
  unfold path_ends_with at h
  cases hseg : p.lastSeg with
  | none => rw [hseg] at h; simp at h
  | some seg =>
      rw [hseg] at h
      exact ⟨seg, rfl, by simpa using h⟩

/-- Every guard tried before the `Result` arm of `type_replacements` is
false when the path's last segment identifier is `Result`. -/
theorem result_guards_false {p : RsPath}
    (h : path_ends_with p "Result" = true) :
    p.is_ident "bool" = false ∧ p.is_ident "String" = false ∧
    p.is_ident "str" = false ∧ path_is_unsigned p = false ∧
    path_is_signed p = false ∧ path_is_nonzero_signed p = false ∧
    path_is_nonzero_unsigned p = false ∧ path_is_float p = false := by
  obtain ⟨seg, hseg, hid⟩ := lastSeg_of_ends_with h
  refine ⟨is_ident_false_of_ends_with h (by decide),
    is_ident_false_of_ends_with h (by decide),
    is_ident_false_of_ends_with h (by decide), ?_, ?_, ?_, ?_, ?_⟩
  · simp [path_is_unsigned, is_ident_false_of_ends_with h]
  · simp [path_is_signed, is_ident_false_of_ends_with h]
  · simp [path_is_nonzero_signed, hseg, hid]
  · simp [path_is_nonzero_unsigned, hseg, hid]
  · simp [path_is_float, is_ident_false_of_ends_with h]

/-- Rendering a lone identifier token is the identifier itself. -/
theorem pretty_ident (s : String) :
    tokens_to_pretty_string [.ident s] = s := by
  unfold tokens_to_pretty_string
  rw [pttList_cons, List.head?_nil, pttList_nil, pttStep_eq,
    stepStr_ident _ _ _ spaceAfterWord_none, String.empty_append]

/-- C1: for a return type whose path ends in `Result`, the replacements are
`Ok(r)` for each recursive replacement `r` of the first type argument (in
order), or the single `Ok(Default::default())` when the `Result` has no
type arguments, followed in both cases by `Err(e)` for each configured
error expression in the configured order; in particular
`Result<Result<bool>>` with one error expression `e` yields exactly
`Ok(Ok(true))`, `Ok(Ok(false))`, `Ok(Err(e))`, `Err(e)` in that order. -/
theorem C1_result_replacements (p : RsPath) (errs : List (List Tok))
    (hres : path_ends_with p "Result" = true) :
    (∀ t, match_first_type_arg p "Result" = some t →
      type_replacements (.path p) errs =
        (type_replacements t errs).map
          (fun rep => [.ident "Ok", .group .paren rep]) ++
        errs.map (fun e => [.ident "Err", .group .paren e])) ∧
    (match_first_type_arg p "Result" = none →
      type_replacements (.path p) errs =
        [[.ident "Ok", .group .paren defaultCall]] ++
        errs.map (fun e => [.ident "Err", .group .paren e])) ∧
    (∀ e, type_replacements resultResultBool [e] =
        [[.ident "Ok", .group .paren [.ident "Ok", .group .paren [.ident "true"]]],
         [.ident "Ok", .group .paren [.ident "Ok", .group .paren [.ident "false"]]],
         [.ident "Ok", .group .paren [.ident "Err", .group .paren e]],
         [.ident "Err", .group .paren e]] ∧
      (type_replacements resultResultBool [e]).map tokens_to_pretty_string =
        ["Ok(Ok(true))", "Ok(Ok(false))",
         "Ok(Err(" ++ tokens_to_pretty_string e ++ "))",
         "Err(" ++ tokens_to_pretty_string e ++ ")"]) := by
  obtain ⟨hg1, hg2, hg3, hg4, hg5, hg6, hg7, hg8⟩ := result_guards_false hres
  refine ⟨?_, ?_, ?_⟩
  · intro t hmf
    rw [type_replacements]
    rw [if_neg (by simp [hg1]), if_neg (by simp [hg2]), if_neg (by simp [hg3]),
      if_neg (by simp [hg4]), if_neg (by simp [hg5]), if_neg (by simp [hg6]),
      if_neg (by simp [hg7]), if_neg (by simp [hg8]), if_pos hres]
    split
    next ok_type heq =>
      rw [result_ok_type] at heq
      rw [hmf] at heq
      cases heq
      rfl
    next heq =>
      rw [result_ok_type] at heq
      rw [hmf] at heq
      simp at heq
  · intro hmf
    rw [type_replacements]
    rw [if_neg (by simp [hg1]), if_neg (by simp [hg2]), if_neg (by simp [hg3]),
      if_neg (by simp [hg4]), if_neg (by simp [hg5]), if_neg (by simp [hg6]),
      if_neg (by simp [hg7]), if_neg (by simp [hg8]), if_pos hres]
    split
    next ok_type heq =>
      rw [result_ok_type] at heq
      rw [hmf] at heq
      simp at heq
    next heq => rfl
  · intro e
    have hT : type_replacements resultResultBool [e] =
        [[.ident "Ok", .group .paren [.ident "Ok", .group .paren [.ident "true"]]],
         [.ident "Ok", .group .paren [.ident "Ok", .group .paren [.ident "false"]]],
         [.ident "Ok", .group .paren [.ident "Err", .group .paren e]],
         [.ident "Err", .group .paren e]] := by
      simp [resultResultBool, type_replacements, RsPath.is_ident,
        path_is_unsigned, path_is_signed, path_is_float,
        path_is_nonzero_signed, path_is_nonzero_unsigned, path_ends_with,
        RsPath.lastSeg, RsPath.segments, RsSeg.identStr, RsSeg.arguments,
        result_ok_type, match_first_type_arg]
    refine ⟨hT, ?_⟩
    rw [hT]
    have e1 : tokens_to_pretty_string
        [.ident "Ok", .group .paren [.ident "Ok", .group .paren [.ident "true"]]] =
        "Ok(Ok(true))" := by
      rw [pretty_call, pretty_call, pretty_ident]
      decide
    have e2 : tokens_to_pretty_string
        [.ident "Ok", .group .paren [.ident "Ok", .group .paren [.ident "false"]]] =
        "Ok(Ok(false))" := by
      rw [pretty_call, pretty_call, pretty_ident]
      decide
    have e3 : tokens_to_pretty_string
        [.ident "Ok", .group .paren [.ident "Err", .group .paren e]] =
        "Ok(Err(" ++ tokens_to_pretty_string e ++ "))" := by
      rw [pretty_call, pretty_call]
      apply string_ext
      simp [String.data_append]
    have e4 : tokens_to_pretty_string [.ident "Err", .group .paren e] =
        "Err(" ++ tokens_to_pretty_string e ++ ")" := by
      rw [pretty_call]
      apply string_ext
      simp [String.data_append]
    rw [List.map_cons, List.map_cons, List.map_cons, List.map_cons,
      List.map_nil, e1, e2, e3, e4]

/-- Witness for C1: the bare path `Result` (no type arguments) with no
configured error expressions yields exactly `Ok(Default::default())`. -/
theorem C1_result_replacements_witness :
    path_ends_with (RsPath.mk false [.mk "Result" SegArgs.noArgs])
        "Result" = true ∧
    type_replacements
        (.path (RsPath.mk false [.mk "Result" SegArgs.noArgs])) [] =
      [[.ident "Ok", .group .paren defaultCall]] :=
  ⟨by decide, by
    have h := (C1_result_replacements
      (RsPath.mk false [.mk "Result" SegArgs.noArgs]) [] (by decide)).2.1
      (by rfl)
    simpa using h⟩

/-! ## C9: distinctness of the replacement texts of one function -/

/-- Well-formedness of an identifier as `syn` guarantees it: nonempty and
without a trailing space. -/
def wfIdent (s : String) : Bool :=
  s != "" && lastChar s != some ' '

mutual

/-- Well-formedness of an embedded type: every path segment identifier is a
well-formed identifier. -/
def wfType (t : RsType) : Bool :=
  match t with
  | .path p => wfPath p
  | .array elem _ => wfType elem
  | .reference _ elem => wfType elem
  | .tuple _ => true
  | .never => true
  | .other _ => true
termination_by sizeOf t
decreasing_by all_goals (simp_wf; try omega)

/-- Well-formedness of a path. -/
def wfPath (p : RsPath) : Bool :=
  match p with
  | .mk _ segs => wfSegList segs
termination_by sizeOf p
decreasing_by all_goals (simp_wf; try omega)

/-- Well-formedness of a segment list. -/
def wfSegList (segs : List RsSeg) : Bool :=
  match segs with
  | [] => true
  | s :: rest => wfSeg s && wfSegList rest
termination_by sizeOf segs
decreasing_by all_goals (simp_wf; try omega)

/-- Well-formedness of one segment. -/
def wfSeg (s : RsSeg) : Bool :=
  match s with
  | .mk i args => wfIdent i && wfSegArgsB args
termination_by sizeOf s
decreasing_by all_goals (simp_wf; try omega)

/-- Well-formedness of a segment's arguments. -/
def wfSegArgsB (args : SegArgs) : Bool :=
  match args with
  | .noArgs => true
  | .angle gas => wfGenArgList gas
  | .parenArgs _ => true
termination_by sizeOf args
decreasing_by all_goals (simp_wf; try omega)

/-- Well-formedness of a generic-argument list. -/
def wfGenArgList (gas : List GenArg) : Bool :=
  match gas with
  | [] => true
  | .typeArg t :: rest => wfType t && wfGenArgList rest
  | .otherArg _ :: rest => wfGenArgList rest
termination_by sizeOf gas
decreasing_by all_goals (simp_wf; try omega)

end

/-- Well-formedness of a return type. -/
def wfRetTy : RetTy → Bool
  | .default => true
  | .type t => wfType t

theorem wfSegList_mem {segs : List RsSeg} {s : RsSeg}
    (hwf : wfSegList segs = true) (hmem : s ∈ segs) : wfSeg s = true := by
  induction segs with
  | nil => cases hmem
  | cons a rest ih =>
      rw [wfSegList] at hwf
      obtain ⟨h1, h2⟩ := (Bool.and_eq_true _ _).mp hwf
      cases hmem with
      | head => exact h1
      | tail _ h => exact ih h2 h

theorem wfGenArgList_mem {gas : List GenArg} {t : RsType}
    (hwf : wfGenArgList gas = true) (hmem : GenArg.typeArg t ∈ gas) :
    wfType t = true := by
  induction gas with
  | nil => cases hmem
  | cons a rest ih =>
      cases hmem with
      | head =>
          rw [wfGenArgList] at hwf
          exact ((Bool.and_eq_true _ _).mp hwf).1
      | tail _ h =>
          cases a with
          | typeArg t2 =>
              rw [wfGenArgList] at hwf
              exact ih ((Bool.and_eq_true _ _).mp hwf).2 h
          | otherArg ts =>
              rw [wfGenArgList] at hwf
              exact ih hwf h

/-- The last segment of a well-formed path is well-formed. -/
theorem wfPath_lastSeg {p : RsPath} {seg : RsSeg}
    (hwf : wfPath p = true) (hseg : p.lastSeg = some seg) :
    wfIdent seg.identStr = true ∧ wfSegArgsB seg.arguments = true := by
  have hmem : seg ∈ p.segments := List.mem_of_mem_getLast? hseg
  have hs : wfSeg seg = true := by
    cases p with
    | mk lc segs =>
        rw [wfPath] at hwf
        simp only [RsPath.segments] at hmem
        exact wfSegList_mem hwf hmem
  cases seg with
  | mk i args =>
      rw [wfSeg] at hs
      simpa [RsSeg.identStr, RsSeg.arguments] using
        (Bool.and_eq_true _ _).mp hs

/-- The type found by `match_first_type_arg` in a well-formed path is
well-formed. -/
theorem match_first_type_arg_wf {p : RsPath} {s : String} {t : RsType}
    (h : match_first_type_arg p s = some t) (hwf : wfPath p = true) :
    wfType t = true := by
  unfold match_first_type_arg at h
  cases hseg : p.lastSeg with
  | none => rw [hseg] at h; simp at h
  | some seg =>
    rw [hseg] at h
    dsimp only at h
    by_cases hid : (seg.identStr == s) = true
    · rw [if_pos hid] at h
      cases harg : seg.arguments with
      | angle args =>
        rw [harg] at h
        cases args with
        | nil => simp at h
        | cons a rest =>
          cases a with
          | typeArg t2 =>
            simp only [Option.some.injEq] at h
            subst h
            have ha := (wfPath_lastSeg hwf hseg).2
            rw [harg, wfSegArgsB] at ha
            exact wfGenArgList_mem ha (List.mem_cons_self _ _)
          | otherArg ts => simp at h
      | noArgs => rw [harg] at h; simp at h
      | parenArgs ts => rw [harg] at h; simp at h
    · rw [if_neg hid] at h; simp at h

/-- The name and type found by `known_container` in a well-formed path are
well-formed. -/
theorem known_container_wf {p : RsPath} {k : String} {t : RsType}
    (h : known_container p = some (k, t)) (hwf : wfPath p = true) :
    wfIdent k = true ∧ wfType t = true := by
  unfold known_container at h
  cases hseg : p.lastSeg with
  | none => rw [hseg] at h; simp at h
  | some seg =>
    rw [hseg] at h
    dsimp only at h
    by_cases hid : (["Box", "Cell", "RefCell", "Arc", "Rc", "Mutex"].any
        (fun v => seg.identStr == v)) = true
    · rw [if_pos hid] at h
      cases harg : seg.arguments with
      | angle args =>
        rw [harg] at h
        match args, h with
        | [GenArg.typeArg t2], h =>
          simp only [Option.some.injEq, Prod.mk.injEq] at h
          obtain ⟨rfl, rfl⟩ := h
          obtain ⟨hi, ha⟩ := wfPath_lastSeg hwf hseg
          rw [harg, wfSegArgsB] at ha
          exact ⟨hi, wfGenArgList_mem ha (List.mem_cons_self _ _)⟩
      | noArgs => rw [harg] at h; simp at h
      | parenArgs ts => rw [harg] at h; simp at h
    · rw [if_neg hid] at h; simp at h

/-- The name and type found by `known_collection` in a well-formed path are
well-formed. -/
theorem known_collection_wf {p : RsPath} {k : String} {t : RsType}
    (h : known_collection p = some (k, t)) (hwf : wfPath p = true) :
    wfIdent k = true ∧ wfType t = true := by
  unfold known_collection at h
  cases hseg : p.lastSeg with
  | none => rw [hseg] at h; simp at h
  | some seg =>
    rw [hseg] at h
    dsimp only at h
    by_cases hid : (!(["BinaryHeap", "BTreeSet", "HashSet", "LinkedList",
        "VecDeque"].any (fun v => seg.identStr == v))) = true
    · rw [if_pos hid] at h; simp at h
    · rw [if_neg hid] at h
      cases harg : seg.arguments with
      | angle args =>
        rw [harg] at h
        match args, h with
        | [GenArg.typeArg t2], h =>
          simp only [Option.some.injEq, Prod.mk.injEq] at h
          obtain ⟨rfl, rfl⟩ := h
          obtain ⟨hi, ha⟩ := wfPath_lastSeg hwf hseg
          rw [harg, wfSegArgsB] at ha
          exact ⟨hi, wfGenArgList_mem ha (List.mem_cons_self _ _)⟩
      | noArgs => rw [harg] at h; simp at h
      | parenArgs ts => rw [harg] at h; simp at h

/-- The name and type found by `maybe_collection_or_container` in a
well-formed path are well-formed. -/
theorem maybe_collection_wf {p : RsPath} {k : String} {t : RsType}
    (h : maybe_collection_or_container p = some (k, t))
    (hwf : wfPath p = true) : wfIdent k = true ∧ wfType t = true := by
  unfold maybe_collection_or_container at h
  cases hseg : p.lastSeg with
  | none => rw [hseg] at h; simp at h
  | some seg =>
    rw [hseg] at h
    dsimp only at h
    cases harg : seg.arguments with
    | angle args =>
      rw [harg] at h
      dsimp only at h
      cases hf : args.filterMap GenArg.asType with
      | nil => rw [hf] at h; simp at h
      | cons t2 rest =>
        rw [hf] at h
        match rest, h with
        | [], h =>
          simp only [Option.some.injEq, Prod.mk.injEq] at h
          obtain ⟨rfl, rfl⟩ := h
          have hmem : GenArg.typeArg t2 ∈ args := by
            have hint : t2 ∈ args.filterMap GenArg.asType := by
              rw [hf]; exact List.mem_cons_self _ _
            obtain ⟨a, hma, hfa⟩ := List.mem_filterMap.mp hint
            cases a with
            | typeArg t3 =>
              obtain rfl : t3 = t2 := by simpa [GenArg.asType] using hfa
              exact hma
            | otherArg ts => simp [GenArg.asType] at hfa
          obtain ⟨hi, ha⟩ := wfPath_lastSeg hwf hseg
          rw [harg, wfSegArgsB] at ha
          exact ⟨hi, wfGenArgList_mem ha hmem⟩
    | noArgs => rw [harg] at h; simp at h
    | parenArgs ts => rw [harg] at h; simp at h

theorem endsWord_cons {t : Tok} {ts : List Tok} (h : endsWord ts = true) :
    endsWord (t :: ts) = true := by
  unfold endsWord at h ⊢
  cases ts with
  | nil => simp at h
  | cons a rest => rw [List.getLast?_cons_cons]; exact h

theorem endsWord_ne_nil {ts : List Tok} (h : endsWord ts = true) :
    ts ≠ [] := by
  intro hc
  subst hc
  simp [endsWord] at h

/-- Rendering the empty stream gives the empty string. -/
theorem pretty_nil : tokens_to_pretty_string [] = "" := by
  rw [tokens_to_pretty_string, pttList_nil]

/-- Rendering a lone literal token is the literal itself. -/
theorem pretty_lit (s : String) :
    tokens_to_pretty_string [.lit s] = s := by
  rw [tokens_to_pretty_string, pttList_cons, List.head?_nil, pttList_nil,
    pttStep_eq, stepStr_lit _ _ _ spaceAfterWord_none, String.empty_append]

/-- Rendering a dash followed by a literal. -/
theorem pretty_dash_lit (s : String) :
    tokens_to_pretty_string [.punct '-', .lit s] = "-" ++ s := by
  rw [tokens_to_pretty_string, pttList_cons, List.head?_cons, pttStep_eq,
    stepStr_punct_plain _ _ _ (by decide) (by decide) (by decide),
    String.empty_append]
  rw [pttList_cons, List.head?_nil, pttList_nil, pttStep_eq,
    stepStr_lit _ _ _ spaceAfterWord_none]
  apply string_ext
  simp [String.data_append, String.singleton]

/-- A nonempty well-formed stream renders to a nonempty string. -/
theorem pretty_ne_empty {ts : List Tok} (hwf : wfToks ts = true)
    (hne : ts ≠ []) : tokens_to_pretty_string ts ≠ "" := by
  match ts, hne with
  | t :: rest, _ =>
    obtain ⟨s, hs1, hs2, _⟩ := pretty_progress_aux (sizeOf (t :: rest))
      (t :: rest) (le_refl _) hwf (by simp) ""
    rw [tokens_to_pretty_string, hs1, String.empty_append]
    exact hs2

/-- Cancelling a common prefix and suffix of a string equation. -/
theorem append_inj_of_pre_suf (pre suf : String) {a b : String}
    (h : pre ++ a ++ suf = pre ++ b ++ suf) : a = b :=
  string_append_cancel_left (string_append_cancel_right h)

/-- A nonempty middle part changes a string. -/
theorem middle_ne (pre suf : String) {s : String} (hs : s ≠ "") :
    pre ++ s ++ suf ≠ pre ++ suf := by
  intro h
  have hd := congrArg String.data h
  simp only [String.data_append, List.append_assoc] at hd
  have h2 := List.append_cancel_left hd
  have h3 := congrArg List.length h2
  simp only [List.length_append] at h3
  have h4 : s.data.length = 0 := by omega
  exact hs (string_ext (by simpa using List.length_eq_zero.mp h4))

theorem ok_ne_err (s t : String) :
    "Ok" ++ "(" ++ s ++ ")" ≠ "Err" ++ "(" ++ t ++ ")" := by
  intro h
  have hd := congrArg String.data h
  simp [String.data_append] at hd

theorem none_ne_some (s : String) : "None" ≠ "Some" ++ "(" ++ s ++ ")" := by
  intro h
  have hd := congrArg String.data h
  simp [String.data_append] at hd

theorem pc_new_ne_from_iter (k s t : String) :
    k ++ "::" ++ "new" ++ "(" ++ s ++ ")" ≠
      k ++ "::" ++ "from_iter" ++ "(" ++ t ++ ")" := by
  intro h
  have hd := congrArg String.data h
  simp only [String.data_append, List.append_assoc] at hd
  have h2 := List.append_cancel_left hd
  simp [String.data_append] at h2

theorem pc_new_ne_from (k s t : String) :
    k ++ "::" ++ "new" ++ "(" ++ s ++ ")" ≠
      k ++ "::" ++ "from" ++ "(" ++ t ++ ")" := by
  intro h
  have hd := congrArg String.data h
  simp only [String.data_append, List.append_assoc] at hd
  have h2 := List.append_cancel_left hd
  simp [String.data_append] at h2

theorem pc_from_iter_ne_from (k s t : String) :
    k ++ "::" ++ "from_iter" ++ "(" ++ s ++ ")" ≠
      k ++ "::" ++ "from" ++ "(" ++ t ++ ")" := by
  intro h
  have hd := congrArg String.data h
  simp only [String.data_append, List.append_assoc] at hd
  have h2 := List.append_cancel_left hd
  simp [String.data_append] at h2

/-- Every synthesized replacement for a well-formed type is a well-formed
token stream that ends in a word-like token (identifier, literal or
group). -/
theorem type_replacements_good (errs : List (List Tok)) (n : Nat) :
    ∀ T, sizeOf T ≤ n → wfType T = true →
      ∀ rep ∈ type_replacements T errs,
        wfToks rep = true ∧ endsWord rep = true := by
  induction n using Nat.strong_induction_on with
  | _ n ih =>
    intro T hsize hwf rep hrep
    cases T with
    | path p =>
        rw [wfType] at hwf
        rw [type_replacements] at hrep
        by_cases h1 : p.is_ident "bool" = true
        · rw [if_pos h1] at hrep
          simp only [List.mem_cons, List.not_mem_nil, or_false] at hrep
          rcases hrep with rfl | rfl <;>
            exact ⟨by simp [wfToks, wfTok, lastChar], by simp [endsWord]⟩
        rw [if_neg h1] at hrep
        by_cases h2 : p.is_ident "String" = true
        · rw [if_pos h2] at hrep
          simp only [List.mem_cons, List.not_mem_nil, or_false] at hrep
          rcases hrep with rfl | rfl <;>
            exact ⟨by simp [wfToks, wfTok, lastChar], by simp [endsWord]⟩
        rw [if_neg h2] at hrep
        by_cases h3 : p.is_ident "str" = true
        · rw [if_pos h3] at hrep
          simp only [List.mem_cons, List.not_mem_nil, or_false] at hrep
          rcases hrep with rfl | rfl <;>
            exact ⟨by simp [wfToks, wfTok, lastChar], by simp [endsWord]⟩
        rw [if_neg h3] at hrep
        by_cases h4 : path_is_unsigned p = true
        · rw [if_pos h4] at hrep
          simp only [List.mem_cons, List.not_mem_nil, or_false] at hrep
          rcases hrep with rfl | rfl <;>
            exact ⟨by simp [wfToks, wfTok, lastChar], by simp [endsWord]⟩
        rw [if_neg h4] at hrep
        by_cases h5 : path_is_signed p = true
        · rw [if_pos h5] at hrep
          simp only [List.mem_cons, List.not_mem_nil, or_false] at hrep
          rcases hrep with rfl | rfl | rfl <;>
            exact ⟨by simp [wfToks, wfTok, lastChar], by simp [endsWord]⟩
        rw [if_neg h5] at hrep
        by_cases h6 : path_is_nonzero_signed p = true
        · rw [if_pos h6] at hrep
          simp only [List.mem_cons, List.not_mem_nil, or_false] at hrep
          rcases hrep with rfl | rfl <;>
            exact ⟨by simp [wfToks, wfTok, lastChar], by simp [endsWord]⟩
        rw [if_neg h6] at hrep
        by_cases h7 : path_is_nonzero_unsigned p = true
        · rw [if_pos h7] at hrep
          simp only [List.mem_cons, List.not_mem_nil, or_false] at hrep
          rcases hrep with rfl
          exact ⟨by simp [wfToks, wfTok, lastChar], by simp [endsWord]⟩
        rw [if_neg h7] at hrep
        by_cases h8 : path_is_float p = true
        · rw [if_pos h8] at hrep
          simp only [List.mem_cons, List.not_mem_nil, or_false] at hrep
          rcases hrep with rfl | rfl | rfl <;>
            exact ⟨by simp [wfToks, wfTok, lastChar], by simp [endsWord]⟩
        rw [if_neg h8] at hrep
        by_cases h9 : path_ends_with p "Result" = true
        · rw [if_pos h9] at hrep
          rcases List.mem_append.mp hrep with hmem | hmem
          · split at hmem
            next ok_type heq =>
              obtain ⟨r, hr, rfl⟩ := List.mem_map.mp hmem
              exact ⟨by simp [wfToks, wfTok, lastChar], by simp [endsWord]⟩
            next heq =>
              simp only [List.mem_singleton] at hmem
              subst hmem
              exact ⟨by simp [wfToks, wfTok, lastChar], by simp [endsWord]⟩
          · obtain ⟨e, he, rfl⟩ := List.mem_map.mp hmem
            exact ⟨by simp [wfToks, wfTok, lastChar], by simp [endsWord]⟩
        rw [if_neg h9] at hrep
        by_cases h10 : path_ends_with p "HttpResponse" = true
        · rw [if_pos h10] at hrep
          simp only [List.mem_singleton] at hrep
          subst hrep
          exact ⟨by simp [wfToks, wfTok, lastChar], by simp [endsWord]⟩
        rw [if_neg h10] at hrep
        split at hrep
        next some_type heq =>
          rcases List.mem_cons.mp hrep with rfl | hmem
          · exact ⟨by simp [wfToks, wfTok, lastChar], by simp [endsWord]⟩
          · obtain ⟨r, hr, rfl⟩ := List.mem_map.mp hmem
            exact ⟨by simp [wfToks, wfTok, lastChar], by simp [endsWord]⟩
        next heq =>
          split at hrep
          next boxed heq2 =>
            rcases List.mem_cons.mp hrep with rfl | hmem
            · exact ⟨by simp [wfToks, wfTok, lastChar], by simp [endsWord]⟩
            · obtain ⟨r, hr, rfl⟩ := List.mem_map.mp hmem
              exact ⟨by simp [wfToks, wfTok, lastChar], by simp [endsWord]⟩
          next heq2 =>
            split at hrep
            next k t heq3 =>
              obtain ⟨r, hr, rfl⟩ := List.mem_map.mp hrep
              have hk := (known_container_wf heq3 hwf).1
              rw [wfIdent] at hk
              obtain ⟨hk1, hk2⟩ := (Bool.and_eq_true _ _).mp hk
              simp only [bne_iff_ne, ne_eq] at hk1 hk2
              simp only [lastChar, List.head?_reverse] at hk2
              exact ⟨by simp [wfToks, wfTok, lastChar, hk1, hk2],
                by simp [endsWord]⟩
            next heq3 =>
              split at hrep
              next k t heq4 =>
                have hk := (known_collection_wf heq4 hwf).1
                rw [wfIdent] at hk
                obtain ⟨hk1, hk2⟩ := (Bool.and_eq_true _ _).mp hk
                simp only [bne_iff_ne, ne_eq] at hk1 hk2
                simp only [lastChar, List.head?_reverse] at hk2
                rcases List.mem_cons.mp hrep with rfl | hmem
                · exact ⟨by simp [wfToks, wfTok, lastChar, hk1, hk2],
                    by simp [endsWord]⟩
                · obtain ⟨r, hr, rfl⟩ := List.mem_map.mp hmem
                  exact ⟨by simp [wfToks, wfTok, lastChar, hk1, hk2],
                    by simp [endsWord]⟩
              next heq4 =>
                split at hrep
                next k t heq5 =>
                  have hk := (maybe_collection_wf heq5 hwf).1
                  rw [wfIdent] at hk
                  obtain ⟨hk1, hk2⟩ := (Bool.and_eq_true _ _).mp hk
                  simp only [bne_iff_ne, ne_eq] at hk1 hk2
                  simp only [lastChar, List.head?_reverse] at hk2
                  rcases List.mem_cons.mp hrep with rfl | hmem
                  · exact ⟨by simp [wfToks, wfTok, lastChar, hk1, hk2],
                      by simp [endsWord]⟩
                  · obtain ⟨r, hr, hmem2⟩ := List.mem_flatMap.mp hmem
                    simp only [List.mem_cons, List.not_mem_nil,
                      or_false] at hmem2
                    rcases hmem2 with rfl | rfl | rfl <;>
                      exact ⟨by simp [wfToks, wfTok, lastChar, hk1, hk2],
                        by simp [endsWord]⟩
                next heq5 =>
                  simp only [List.mem_singleton] at hrep
                  subst hrep
                  exact ⟨by simp [wfToks, wfTok, lastChar, defaultCall],
                    by simp [endsWord, defaultCall]⟩
    | array elem len =>
        rw [type_replacements] at hrep
        obtain ⟨r, hr, rfl⟩ := List.mem_map.mp hrep
        exact ⟨by simp [wfToks, wfTok], by simp [endsWord]⟩
    | reference mutbl elem =>
        cases mutbl with
        | false =>
            rw [wfType] at hwf
            rw [type_replacements] at hrep
            split_ifs at hrep with hstr
            · simp only [List.mem_cons, List.not_mem_nil, or_false] at hrep
              rcases hrep with rfl | rfl <;>
                exact ⟨by simp [wfToks, wfTok, lastChar],
                  by simp [endsWord]⟩
            · obtain ⟨r, hr, rfl⟩ := List.mem_map.mp hrep
              have hsz : sizeOf elem < sizeOf (RsType.reference false elem) := by
                simp
              obtain ⟨hw, he⟩ := ih (sizeOf elem) (by omega) elem (le_refl _)
                hwf r hr
              refine ⟨?_, endsWord_cons he⟩
              rw [wfToks]
              simp [wfTok, hw]
        | true =>
            rw [type_replacements] at hrep
            obtain ⟨r, hr, rfl⟩ := List.mem_map.mp hrep
            exact ⟨by simp [wfToks, wfTok, lastChar], by simp [endsWord]⟩
    | tuple elems =>
        rw [type_replacements] at hrep
        split_ifs at hrep
        · simp only [List.mem_singleton] at hrep
          subst hrep
          exact ⟨by simp [wfToks, wfTok], by simp [endsWord]⟩
        · simp only [List.mem_singleton] at hrep
          subst hrep
          exact ⟨by simp [wfToks, wfTok, lastChar, defaultCall],
            by simp [endsWord, defaultCall]⟩
    | never =>
        rw [type_replacements] at hrep
        cases hrep
    | other toks =>
        rw [type_replacements] at hrep
        simp only [List.mem_singleton] at hrep
        subst hrep
        exact ⟨by simp [wfToks, wfTok, lastChar, defaultCall],
          by simp [endsWord, defaultCall]⟩

/-- Mapping a transformation that reflects rendered equality preserves
distinctness of the rendered replacements. -/
theorem nodup_map_pretty_refl (f : List Tok → List Tok) :
    ∀ R : List (List Tok),
      (∀ r1 ∈ R, ∀ r2 ∈ R, tokens_to_pretty_string (f r1) =
          tokens_to_pretty_string (f r2) →
        tokens_to_pretty_string r1 = tokens_to_pretty_string r2) →
      (R.map tokens_to_pretty_string).Nodup →
      ((R.map f).map tokens_to_pretty_string).Nodup := by
  intro R
  induction R with
  | nil => intro _ _; simp
  | cons r rest ih =>
      intro hf hnd
      rw [List.map_cons, List.nodup_cons] at hnd
      rw [List.map_cons, List.map_cons, List.nodup_cons]
      refine ⟨?_, ih (fun a ha b hb => hf a (List.mem_cons_of_mem _ ha) b
        (List.mem_cons_of_mem _ hb)) hnd.2⟩
      intro hmem
      rw [List.map_map] at hmem
      obtain ⟨r2, hr2, heq⟩ := List.mem_map.mp hmem
      have hpp := hf r (List.mem_cons_self _ _) r2
        (List.mem_cons_of_mem _ hr2) heq.symm
      exact hnd.1 (hpp ▸ List.mem_map.mpr ⟨r2, hr2, rfl⟩)

/-- Distinctness for the three-fold `flatMap` of the maybe-collection
arm: the three shapes reflect rendered equality and are pairwise
non-overlapping. -/
theorem nodup_flatMap_pretty_three (f1 f2 f3 : List Tok → List Tok)
    (hr1 : ∀ r1 r2, tokens_to_pretty_string (f1 r1) =
        tokens_to_pretty_string (f1 r2) →
      tokens_to_pretty_string r1 = tokens_to_pretty_string r2)
    (hr2 : ∀ r1 r2, tokens_to_pretty_string (f2 r1) =
        tokens_to_pretty_string (f2 r2) →
      tokens_to_pretty_string r1 = tokens_to_pretty_string r2)
    (hr3 : ∀ r1 r2, tokens_to_pretty_string (f3 r1) =
        tokens_to_pretty_string (f3 r2) →
      tokens_to_pretty_string r1 = tokens_to_pretty_string r2)
    (h12 : ∀ r1 r2, tokens_to_pretty_string (f1 r1) ≠
      tokens_to_pretty_string (f2 r2))
    (h13 : ∀ r1 r2, tokens_to_pretty_string (f1 r1) ≠
      tokens_to_pretty_string (f3 r2))
    (h23 : ∀ r1 r2, tokens_to_pretty_string (f2 r1) ≠
      tokens_to_pretty_string (f3 r2)) :
    ∀ R : List (List Tok), (R.map tokens_to_pretty_string).Nodup →
      ((R.flatMap (fun r => [f1 r, f2 r, f3 r])).map
        tokens_to_pretty_string).Nodup := by
  intro R
  induction R with
  | nil => intro _; simp
  | cons r rest ih =>
      intro hnd
      rw [List.map_cons, List.nodup_cons] at hnd
      rw [List.flatMap_cons, List.map_append]
      refine List.Nodup.append ?_ (ih hnd.2) ?_
      · simp only [List.map_cons, List.map_nil]
        refine List.nodup_cons.mpr ⟨?_,
          List.nodup_cons.mpr ⟨?_, List.nodup_singleton _⟩⟩
        · intro hmem
          simp only [List.mem_cons, List.not_mem_nil, or_false] at hmem
          rcases hmem with hmem | hmem
          · exact h12 r r hmem
          · exact h13 r r hmem
        · intro hmem
          simp only [List.mem_cons, List.not_mem_nil, or_false] at hmem
          exact h23 r r hmem
      · intro x hx hy
        simp only [List.map_cons, List.map_nil, List.mem_cons,
          List.not_mem_nil, or_false] at hx
        obtain ⟨q, hq, hxq⟩ := List.mem_map.mp hy
        obtain ⟨r2, hr2mem, hqmem⟩ := List.mem_flatMap.mp hq
        have hr2p : tokens_to_pretty_string r2 ∈
            rest.map tokens_to_pretty_string :=
          List.mem_map.mpr ⟨r2, hr2mem, rfl⟩
        simp only [List.mem_cons, List.not_mem_nil, or_false] at hqmem
        rcases hx with rfl | rfl | rfl <;> rcases hqmem with rfl | rfl | rfl
        · exact hnd.1 (hr1 r2 r hxq ▸ hr2p)
        · exact h12 r r2 hxq.symm
        · exact h13 r r2 hxq.symm
        · exact h12 r2 r hxq
        · exact hnd.1 (hr2 r2 r hxq ▸ hr2p)
        · exact h23 r r2 hxq.symm
        · exact h13 r2 r hxq
        · exact h23 r2 r hxq
        · exact hnd.1 (hr3 r2 r hxq ▸ hr2p)

/-- Rendering `"xyzzy".into()`. -/
theorem pretty_xyzzy_into :
    tokens_to_pretty_string [.lit "\"xyzzy\"", .punct '.', .ident "into",
      .group .paren []] = "\"xyzzy\".into()" := by
  rw [tokens_to_pretty_string]
  rw [pttList_cons, List.head?_cons, pttStep_eq,
    stepStr_lit _ _ _ (by decide), String.empty_append]
  rw [pttList_cons, List.head?_cons, pttStep_eq,
    stepStr_punct_plain _ _ _ (by decide) (by decide) (by decide)]
  rw [pttList_cons, List.head?_cons, pttStep_eq,
    stepStr_ident _ _ _ (by rfl)]
  rw [pttList_cons, List.head?_nil, pttList_nil, pttStep_eq, stepStr_group]
  apply string_ext
  simp [String.data_append, String.singleton, delimOpen, delimClose,
    String.data_push, pttList_nil]

/-- The rendered replacement texts synthesized for one well-formed type are
pairwise distinct, provided the configured error expressions render to
pairwise distinct texts. -/
theorem type_replacements_pretty_nodup (errs : List (List Tok))
    (hnd : (errs.map tokens_to_pretty_string).Nodup) (n : Nat) :
    ∀ T, sizeOf T ≤ n → wfType T = true →
      ((type_replacements T errs).map tokens_to_pretty_string).Nodup := by
  induction n using Nat.strong_induction_on with
  | _ n ih =>
    intro T hsize hwf
    cases T with
    | path p =>
        rw [wfType] at hwf
        rw [type_replacements]
        by_cases h1 : p.is_ident "bool" = true
        · rw [if_pos h1]
          simp only [List.map_cons, List.map_nil, pretty_ident]
          decide
        rw [if_neg h1]
        by_cases h2 : p.is_ident "String" = true
        · rw [if_pos h2]
          simp only [List.map_cons, List.map_nil]
          rw [show tokens_to_pretty_string [.ident "String", .punct ':',
              .punct ':', .ident "new", .group .paren []] = "String::new()"
              from by rw [pretty_path_call, pretty_nil]; decide,
            pretty_xyzzy_into]
          decide
        rw [if_neg h2]
        by_cases h3 : p.is_ident "str" = true
        · rw [if_pos h3]
          simp only [List.map_cons, List.map_nil, pretty_lit]
          decide
        rw [if_neg h3]
        by_cases h4 : path_is_unsigned p = true
        · rw [if_pos h4]
          simp only [List.map_cons, List.map_nil, pretty_lit]
          decide
        rw [if_neg h4]
        by_cases h5 : path_is_signed p = true
        · rw [if_pos h5]
          simp only [List.map_cons, List.map_nil, pretty_lit,
            pretty_dash_lit]
          decide
        rw [if_neg h5]
        by_cases h6 : path_is_nonzero_signed p = true
        · rw [if_pos h6]
          simp only [List.map_cons, List.map_nil, pretty_lit,
            pretty_dash_lit]
          decide
        rw [if_neg h6]
        by_cases h7 : path_is_nonzero_unsigned p = true
        · rw [if_pos h7]
          simp
        rw [if_neg h7]
        by_cases h8 : path_is_float p = true
        · rw [if_pos h8]
          simp only [List.map_cons, List.map_nil, pretty_lit,
            pretty_dash_lit]
          decide
        rw [if_neg h8]
        by_cases h9 : path_ends_with p "Result" = true
        · rw [if_pos h9]
          rw [List.map_append]
          refine List.Nodup.append ?_ ?_ ?_
          · split
            next ok_type heq =>
              rw [result_ok_type] at heq
              have hszo := match_first_type_arg_sizeOf heq
              have hszp : sizeOf (RsType.path p) ≤ n := hsize
              refine nodup_map_pretty_refl _ _ ?_ (ih (sizeOf ok_type)
                (by omega) ok_type (le_refl _)
                (match_first_type_arg_wf heq hwf))
              intro r1 _ r2 _ hpq
              rw [pretty_call, pretty_call] at hpq
              exact append_inj_of_pre_suf ("Ok" ++ "(") ")" hpq
            next heq => simp
          · refine nodup_map_pretty_refl _ _ ?_ hnd
            intro e1 _ e2 _ hpq
            rw [pretty_call, pretty_call] at hpq
            exact append_inj_of_pre_suf ("Err" ++ "(") ")" hpq
          · intro x hx hy
            obtain ⟨q, hq, hxq⟩ := List.mem_map.mp hy
            obtain ⟨e, he, rfl⟩ := List.mem_map.mp hq
            split at hx
            next ok_type heq =>
              obtain ⟨q2, hq2, hxq2⟩ := List.mem_map.mp hx
              obtain ⟨r, hr, rfl⟩ := List.mem_map.mp hq2
              have heqs := hxq2.trans hxq.symm
              rw [pretty_call, pretty_call] at heqs
              exact ok_ne_err _ _ heqs
            next heq =>
              simp only [List.map_cons, List.map_nil, List.mem_cons,
                List.not_mem_nil, or_false] at hx
              have heqs := hx.symm.trans hxq.symm
              rw [pretty_call, pretty_call] at heqs
              exact ok_ne_err _ _ heqs
        rw [if_neg h9]
        by_cases h10 : path_ends_with p "HttpResponse" = true
        · rw [if_pos h10]
          simp
        rw [if_neg h10]
        split
        next some_type heq =>
          have hszo := match_first_type_arg_sizeOf heq
          rw [List.map_cons]
          refine List.nodup_cons.mpr ⟨?_, ?_⟩
          · intro hmem
            obtain ⟨q, hq, hxq⟩ := List.mem_map.mp hmem
            obtain ⟨r, hr, rfl⟩ := List.mem_map.mp hq
            rw [pretty_call, pretty_ident] at hxq
            exact none_ne_some _ hxq.symm
          · refine nodup_map_pretty_refl _ _ ?_ (ih (sizeOf some_type)
              (by omega) some_type (le_refl _)
              (match_first_type_arg_wf heq hwf))
            intro r1 _ r2 _ hpq
            rw [pretty_call, pretty_call] at hpq
            exact append_inj_of_pre_suf ("Some" ++ "(") ")" hpq
        next heq =>
          split
          next boxed heq2 =>
            have hszb := match_first_type_arg_sizeOf heq2
            have hwfb := match_first_type_arg_wf heq2 hwf
            rw [List.map_cons]
            refine List.nodup_cons.mpr ⟨?_, ?_⟩
            · intro hmem
              obtain ⟨q, hq, hxq⟩ := List.mem_map.mp hmem
              obtain ⟨r, hr, rfl⟩ := List.mem_map.mp hq
              rw [pretty_vec, pretty_vec, pretty_nil,
                String.append_empty] at hxq
              have hPr : tokens_to_pretty_string r ≠ "" := by
                obtain ⟨hwr, her⟩ := type_replacements_good errs
                  (sizeOf boxed) boxed (le_refl _) hwfb r hr
                exact pretty_ne_empty hwr (endsWord_ne_nil her)
              exact middle_ne "vec![" "]" hPr hxq
            · refine nodup_map_pretty_refl _ _ ?_ (ih (sizeOf boxed)
                (by omega) boxed (le_refl _) hwfb)
              intro r1 _ r2 _ hpq
              rw [pretty_vec, pretty_vec] at hpq
              exact append_inj_of_pre_suf "vec![" "]" hpq
          next heq2 =>
            split
            next k t heq3 =>
              have hszt := known_container_sizeOf heq3
              refine nodup_map_pretty_refl _ _ ?_ (ih (sizeOf t)
                (by omega) t (le_refl _) (known_container_wf heq3 hwf).2)
              intro r1 _ r2 _ hpq
              rw [pretty_path_call, pretty_path_call] at hpq
              exact append_inj_of_pre_suf (k ++ "::" ++ "new" ++ "(") ")" hpq
            next heq3 =>
              split
              next k t heq4 =>
                have hszt := known_collection_sizeOf heq4
                have hwft := (known_collection_wf heq4 hwf).2
                rw [List.map_cons]
                refine List.nodup_cons.mpr ⟨?_, ?_⟩
                · intro hmem
                  obtain ⟨q, hq, hxq⟩ := List.mem_map.mp hmem
                  obtain ⟨r, hr, rfl⟩ := List.mem_map.mp hq
                  rw [pretty_path_call, pretty_path_call] at hxq
                  exact pc_new_ne_from_iter k _ _ hxq.symm
                · refine nodup_map_pretty_refl _ _ ?_ (ih (sizeOf t)
                    (by omega) t (le_refl _) hwft)
                  intro r1 _ r2 _ hpq
                  rw [pretty_path_call, pretty_path_call] at hpq
                  have hin := append_inj_of_pre_suf
                    (k ++ "::" ++ "from_iter" ++ "(") ")" hpq
                  rw [pretty_group, pretty_group] at hin
                  exact append_inj_of_pre_suf (delimOpen .bracket "")
                    (delimClose .bracket "") hin
              next heq4 =>
                split
                next k t heq5 =>
                  have hszt := maybe_collection_sizeOf heq5
                  have hwft := (maybe_collection_wf heq5 hwf).2
                  have hgood := type_replacements_good errs (sizeOf t) t
                    (le_refl _) hwft
                  rw [List.map_cons]
                  refine List.nodup_cons.mpr ⟨?_, ?_⟩
                  · intro hmem
                    obtain ⟨q, hq, hxq⟩ := List.mem_map.mp hmem
                    obtain ⟨r, hrm, hqmem⟩ := List.mem_flatMap.mp hq
                    simp only [List.mem_cons, List.not_mem_nil,
                      or_false] at hqmem
                    have hPr : tokens_to_pretty_string r ≠ "" := by
                      obtain ⟨hwr, her⟩ := hgood r hrm
                      exact pretty_ne_empty hwr (endsWord_ne_nil her)
                    rcases hqmem with rfl | rfl | rfl
                    · rw [pretty_path_call, pretty_path_call] at hxq
                      exact pc_new_ne_from_iter k _ _ hxq.symm
                    · rw [pretty_path_call, pretty_path_call, pretty_nil,
                        String.append_empty] at hxq
                      exact middle_ne (k ++ "::" ++ "new" ++ "(") ")" hPr hxq
                    · rw [pretty_path_call, pretty_path_call] at hxq
                      exact pc_new_ne_from k _ _ hxq.symm
                  · refine nodup_flatMap_pretty_three _ _ _ ?_ ?_ ?_ ?_ ?_ ?_
                      _ (ih (sizeOf t) (by omega) t (le_refl _) hwft)
                    · intro r1 r2 hpq
                      rw [pretty_path_call, pretty_path_call] at hpq
                      have hin := append_inj_of_pre_suf
                        (k ++ "::" ++ "from_iter" ++ "(") ")" hpq
                      rw [pretty_group, pretty_group] at hin
                      exact append_inj_of_pre_suf (delimOpen .bracket "")
                        (delimClose .bracket "") hin
                    · intro r1 r2 hpq
                      rw [pretty_path_call, pretty_path_call] at hpq
                      exact append_inj_of_pre_suf (k ++ "::" ++ "new" ++ "(")
                        ")" hpq
                    · intro r1 r2 hpq
                      rw [pretty_path_call, pretty_path_call] at hpq
                      exact append_inj_of_pre_suf (k ++ "::" ++ "from" ++ "(")
                        ")" hpq
                    · intro r1 r2
                      rw [pretty_path_call, pretty_path_call]
                      intro hpq
                      exact pc_new_ne_from_iter k _ _ hpq.symm
                    · intro r1 r2
                      rw [pretty_path_call, pretty_path_call]
                      intro hpq
                      exact pc_from_iter_ne_from k _ _ hpq
                    · intro r1 r2
                      rw [pretty_path_call, pretty_path_call]
                      intro hpq
                      exact pc_new_ne_from k _ _ hpq
                next heq5 => simp
    | array elem len =>
        rw [wfType] at hwf
        rw [type_replacements]
        have hlt : sizeOf elem < sizeOf (RsType.array elem len) := by
          simp only [RsType.array.sizeOf_spec]
          omega
        have hgood := type_replacements_good errs (sizeOf elem) elem
          (le_refl _) hwf
        refine nodup_map_pretty_refl _ _ ?_ (ih (sizeOf elem) (by omega) elem
          (le_refl _) hwf)
        intro r1 hm1 r2 hm2 hpq
        exact pretty_array_inj (hgood r1 hm1).2 (hgood r2 hm2).2 hpq
    | reference mutbl elem =>
        cases mutbl with
        | false =>
            rw [wfType] at hwf
            rw [type_replacements]
            have hlt : sizeOf elem <
                sizeOf (RsType.reference false elem) := by
              simp only [RsType.reference.sizeOf_spec]
              omega
            by_cases hstr : isStrPath elem = true
            · rw [if_pos hstr]
              simp only [List.map_cons, List.map_nil, pretty_lit]
              decide
            · rw [if_neg hstr]
              refine nodup_map_pretty_refl _ _ ?_ (ih (sizeOf elem)
                (by omega) elem (le_refl _) hwf)
              intro r1 _ r2 _ hpq
              rw [pretty_amp, pretty_amp] at hpq
              exact string_append_cancel_left hpq
        | true =>
            rw [wfType] at hwf
            rw [type_replacements]
            have hlt : sizeOf elem <
                sizeOf (RsType.reference true elem) := by
              simp only [RsType.reference.sizeOf_spec]
              omega
            refine nodup_map_pretty_refl _ _ ?_ (ih (sizeOf elem)
              (by omega) elem (le_refl _) hwf)
            intro r1 _ r2 _ hpq
            rw [pretty_path_call, pretty_path_call, pretty_path_call,
              pretty_path_call] at hpq
            have hin := append_inj_of_pre_suf
              ("Box" ++ "::" ++ "leak" ++ "(") ")" hpq
            exact append_inj_of_pre_suf ("Box" ++ "::" ++ "new" ++ "(")
              ")" hin
    | tuple elems =>
        rw [type_replacements]
        by_cases he : elems.isEmpty = true
        · rw [if_pos he]
          simp
        · rw [if_neg he]
          simp
    | never =>
        rw [type_replacements]
        simp
    | other toks =>
        rw [type_replacements]
        simp

/-- C9 (amended): for any two distinct mutants collected from one function
item — whose mutants all share that function's source file and full
function name — the replacement texts differ, for every well-formed return
type, provided the configured error expressions render to pairwise
distinct texts (with repeated error expressions the collected `Err(e)`
mutants repeat verbatim and the property fails). -/
theorem C9_fn_replacements_distinct (sf : SourceFile)
    (errs : List (List Tok)) (v : DiscoveryVisitor) (rt : RetTy)
    (hwf : wfRetTy rt = true)
    (hnd : (errs.map tokens_to_pretty_string).Nodup) :
    List.Pairwise (fun m1 m2 : Mutant =>
        m1.source_file = m2.source_file →
        m1.function_name = m2.function_name →
        m1.replacement ≠ m2.replacement)
      ((collect_fn_mutants sf errs v rt).mutants.drop v.mutants.length) := by
  rw [collect_fn_mutants]
  split
  · rw [List.drop_length]
    exact List.Pairwise.nil
  · rw [List.drop_left]
    have hrep : ((return_type_replacements rt errs).map
        tokens_to_pretty_string).Nodup := by
      cases rt with
      | default => rw [return_type_replacements]; simp
      | type t =>
          rw [return_type_replacements]
          rw [wfRetTy] at hwf
          exact type_replacements_pretty_nodup errs hnd (sizeOf t) t
            (le_refl _) hwf
    rw [List.pairwise_map]
    have hpw : (return_type_replacements rt errs).Pairwise
        (fun r1 r2 => tokens_to_pretty_string r1 ≠
          tokens_to_pretty_string r2) := by
      unfold List.Nodup at hrep
      rw [List.pairwise_map] at hrep
      exact hrep
    exact hpw.imp (fun h _ _ => h)

/-- Witness for C9 (amended): a bare `Result` return type with one
configured error expression. -/
theorem C9_fn_replacements_distinct_witness :
    List.Pairwise (fun m1 m2 : Mutant =>
        m1.source_file = m2.source_file →
        m1.function_name = m2.function_name →
        m1.replacement ≠ m2.replacement)
      ((collect_fn_mutants sfEmpty [[Tok.ident "e"]]
          (DiscoveryVisitor.mk [] ["f"] [])
          (.type (.path (.mk false
            [.mk "Result" SegArgs.noArgs])))).mutants.drop
        (DiscoveryVisitor.mk [] ["f"] []).mutants.length) :=
  C9_fn_replacements_distinct sfEmpty [[Tok.ident "e"]]
    (DiscoveryVisitor.mk [] ["f"] [])
    (.type (.path (.mk false [.mk "Result" SegArgs.noArgs])))
    (by simp [wfRetTy, wfType, wfPath, wfSegList, wfSeg, wfIdent,
      wfSegArgsB, lastChar])
    (by simp)

/-- `fn f() -> Result { .. }` with a nonempty body. -/
def fnResultBare : Item :=
  .fnItem [] false "f"
    (.type (.path (.mk false [.mk "Result" SegArgs.noArgs]))) [.otherStmt]

/-- A file containing only that function. -/
def sfC9 : SourceFile :=
  { tree_relative_path := ["lib.rs"], package := "p"
    code := .parsed [fnResultBare] }

/-- Options configuring the same error expression twice. -/
def optsC9 : Options :=
  { error_values := [some [.ident "e"], some [.ident "e"]]
    examine_globset := none, exclude_globset := none
    examine_names := none, exclude_names := none
    interrupt := fun _ => false }

/-- The mutants that walk produces: `Ok(Default::default())` and two
identical `Err(e)` entries. -/
def c9mutants : List Mutant :=
  [[Tok.ident "Ok", Tok.group .paren defaultCall],
    [Tok.ident "Err", Tok.group .paren [Tok.ident "e"]],
    [Tok.ident "Err", Tok.group .paren [Tok.ident "e"]]].map
    (fun rep =>
      { source_file := sfC9
        function_name := String.intercalate "::"
          [tokens_to_pretty_string [Tok.ident "f"]]
        return_type := return_type_to_string (.type (.path (.mk false
          [.mk "Result" SegArgs.noArgs])))
        replacement := tokens_to_pretty_string rep
        genre := .FnValue })

/-- C9 counterexample: when the same error expression is configured twice,
a successful walk of a file holding `fn f() -> Result` returns two
distinct mutants (the second and third) with the same source file, the
same function name and equal replacement texts, refuting the claimed
invariant. -/
theorem C9_counterexample :
    walk_tree ⟨fun _ => false⟩ ⟨fun _ => none⟩ [] [sfC9] optsC9 2 =
      .ok ⟨c9mutants, [sfC9]⟩ ∧
    ¬ List.Pairwise (fun m1 m2 : Mutant =>
        m1.source_file = m2.source_file →
        m1.function_name = m2.function_name →
        m1.replacement ≠ m2.replacement) c9mutants := by
  constructor
  · rw [walk_tree]
    dsimp only [optsC9, parse_error_exprs, Except.map]
    show walk_loop ⟨fun _ => false⟩ ⟨fun _ => none⟩ [] optsC9
        [[Tok.ident "e"], [Tok.ident "e"]] (1 + 1) 0 [sfC9] [] [] = _
    rw [walk_loop]
    rw [if_neg (by simp [optsC9])]
    rw [show walk_file ⟨fun _ => false⟩ [] sfC9
        [[Tok.ident "e"], [Tok.ident "e"]] = .ok ⟨c9mutants, []⟩ from by
      rw [walk_file]
      simp [sfC9, fnResultBare, visit_file, visit_items, visit_item,
        visit_stmts, fn_sig_excluded, attrs_excluded, block_is_empty,
        collect_fn_mutants, return_type_replacements, type_replacements,
        RsPath.is_ident, path_is_unsigned, path_is_signed, path_is_float,
        path_is_nonzero_signed, path_is_nonzero_unsigned, path_ends_with,
        RsPath.lastSeg, RsPath.segments, RsSeg.identStr, RsSeg.arguments,
        result_ok_type, match_first_type_arg, c9mutants]]
    dsimp only [enqueue_found]
    rw [show (1 : Nat) = 0 + 1 from rfl]
    dsimp only [List.nil_append]
    rw [walk_loop]
    dsimp only [examine_glob_skips, exclude_glob_skips, name_filters,
      optsC9]
    rfl
  · intro h
    have h23 := (List.pairwise_cons.mp (List.pairwise_cons.mp h).2).1 _
      (List.mem_cons_self _ _)
    exact (h23 rfl rfl) rfl

end Visit
